import Mathlib

set_option maxRecDepth 400000

/-!
Shallow embedding of the register-allocation pass in
src/allocate_register.cpp: operand and instruction model, the def/use
classifier, liveness analysis, CFG linearization, live-interval
construction, the linear-scan allocator with eviction, and the spill
rewriter.  Machine integers are modelled as Nat/Int; the pointer-based
operand slots of the C++ code are modelled as paths
(block index, instruction index, slot role) into the instruction lists.
-/

/-- Modelled from the spec: the operand state tags of machine_code.hpp
(the header is not part of the repository files); the spec's data model
lists Virtual, PreColored, Allocated and Immediate. -/
inductive OpState
  | Virtual
  | PreColored
  | Allocated
  | Immediate
deriving DecidableEq, Repr

/-- Modelled from the spec: a MachineOperand is a tagged value whose identity
for set membership is the pair (state-kind, id/value). -/
structure MachineOperand where
  state : OpState
  value : Int
deriving DecidableEq, Repr

instance : Inhabited MachineOperand := ⟨⟨OpState.Immediate, 0⟩⟩

/-- Modelled from the spec: MachineOperand::R builds a precolored physical
register operand. -/
def MachineOperand.R (r : Nat) : MachineOperand := ⟨OpState.PreColored, r⟩

/-- Modelled from the spec: MachineOperand::V builds a virtual register
operand. -/
def MachineOperand.V (id : Nat) : MachineOperand := ⟨OpState.Virtual, id⟩

/-- Modelled from the spec: MachineOperand::I builds an immediate operand. -/
def MachineOperand.I (v : Int) : MachineOperand := ⟨OpState.Immediate, v⟩

/-- Modelled from the spec: standard ARM register numbering used by the
ArmReg enum (r0..r12 are 0..12, sp is 13, lr is 14; ip is the scratch
register r12).  The code relies on r0..r3 being contiguous from 0 and on
all pool registers having ids below 13. -/
def ArmReg.r0 : Nat := 0

/-- ARM register r3. -/
def ArmReg.r3 : Nat := 3

/-- ARM scratch register ip = r12. -/
def ArmReg.ip : Nat := 12

/-- ARM stack pointer sp = r13. -/
def ArmReg.sp : Nat := 13

/-- ARM link register lr = r14. -/
def ArmReg.lr : Nat := 14

/-- Modelled from the spec: needs_color holds for exactly the operands that
participate in liveness and coloring, the Virtual and PreColored ones. -/
def MachineOperand.needs_color (op : MachineOperand) : Bool :=
  match op.state with
  | OpState.Virtual => true
  | OpState.PreColored => true
  | _ => false

/-- The closed set of machine-instruction kinds handled by the allocator
(MIBinary, MILongMul, MIFma, MIMove, MILoad, MIStore, MICompare, MICall,
MIGlobal, MIReturn).  Opcode/condition fields that the allocator never
reads are omitted; a call carries its callee's parameter count, the only
thing get_def_use reads from it. -/
inductive MInst
  | binary (dst lhs rhs : MachineOperand)
  | longMul (dst lhs rhs : MachineOperand)
  | fma (dst lhs rhs acc : MachineOperand)
  | move (dst rhs : MachineOperand)
  | load (dst addr offset : MachineOperand) (shift : Int)
  | store (data addr offset : MachineOperand) (shift : Int)
  | compare (lhs rhs : MachineOperand)
  | call (nparams : Nat)
  | global (dst : MachineOperand)
  | ret
deriving DecidableEq, Repr

instance : Inhabited MInst := ⟨MInst.ret⟩

/-- Translation of get_def_use (allocate_register.cpp lines 17-57): the
defined and used operands of one instruction, by value. -/
def get_def_use (inst : MInst) : List MachineOperand × List MachineOperand :=
  match inst with
  | MInst.binary dst lhs rhs => ([dst], [lhs, rhs])
  | MInst.longMul dst lhs rhs => ([dst], [lhs, rhs])
  | MInst.fma dst lhs rhs acc => ([dst], [dst, lhs, rhs, acc])
  | MInst.move dst rhs => ([dst], [rhs])
  | MInst.load dst addr offset _ => ([dst], [addr, offset])
  | MInst.store data addr offset _ => ([], [data, addr, offset])
  | MInst.compare lhs rhs => ([], [lhs, rhs])
  | MInst.call nparams =>
      ((List.range 4).map (fun i => MachineOperand.R (ArmReg.r0 + i))
         ++ [MachineOperand.R ArmReg.lr, MachineOperand.R ArmReg.ip],
       (List.range (min nparams 4)).map (fun i => MachineOperand.R (ArmReg.r0 + i)))
  | MInst.global dst => ([dst], [])
  | MInst.ret => ([], [MachineOperand.R ArmReg.r0])

/-- The operand slots of an instruction, standing for the C++ fields whose
addresses get_def_use_ptr hands out. -/
inductive SlotRole
  | dstR
  | lhsR
  | rhsR
  | accR
  | addrR
  | offR
  | dataR
deriving DecidableEq, Repr

instance : Inhabited SlotRole := ⟨SlotRole.dstR⟩

/-- Translation of get_def_use_ptr (lines 60-89): the def slot (if any) and
the use slots of one instruction, as slot roles; calls and returns expose no
rewritable slots. -/
def get_def_use_ptr (inst : MInst) : Option SlotRole × List SlotRole :=
  match inst with
  | MInst.binary _ _ _ => (some SlotRole.dstR, [SlotRole.lhsR, SlotRole.rhsR])
  | MInst.longMul _ _ _ => (some SlotRole.dstR, [SlotRole.lhsR, SlotRole.rhsR])
  | MInst.fma _ _ _ _ =>
      (some SlotRole.dstR, [SlotRole.dstR, SlotRole.lhsR, SlotRole.rhsR, SlotRole.accR])
  | MInst.move _ _ => (some SlotRole.dstR, [SlotRole.rhsR])
  | MInst.load _ _ _ _ => (some SlotRole.dstR, [SlotRole.addrR, SlotRole.offR])
  | MInst.store _ _ _ _ => (none, [SlotRole.dataR, SlotRole.addrR, SlotRole.offR])
  | MInst.compare _ _ => (none, [SlotRole.lhsR, SlotRole.rhsR])
  | MInst.call _ => (none, [])
  | MInst.global _ => (some SlotRole.dstR, [])
  | MInst.ret => (none, [])

/-- Reading one operand slot of an instruction. -/
def getSlotInst (inst : MInst) (r : SlotRole) : Option MachineOperand :=
  match inst, r with
  | MInst.binary dst _ _, SlotRole.dstR => some dst
  | MInst.binary _ lhs _, SlotRole.lhsR => some lhs
  | MInst.binary _ _ rhs, SlotRole.rhsR => some rhs
  | MInst.longMul dst _ _, SlotRole.dstR => some dst
  | MInst.longMul _ lhs _, SlotRole.lhsR => some lhs
  | MInst.longMul _ _ rhs, SlotRole.rhsR => some rhs
  | MInst.fma dst _ _ _, SlotRole.dstR => some dst
  | MInst.fma _ lhs _ _, SlotRole.lhsR => some lhs
  | MInst.fma _ _ rhs _, SlotRole.rhsR => some rhs
  | MInst.fma _ _ _ acc, SlotRole.accR => some acc
  | MInst.move dst _, SlotRole.dstR => some dst
  | MInst.move _ rhs, SlotRole.rhsR => some rhs
  | MInst.load dst _ _ _, SlotRole.dstR => some dst
  | MInst.load _ addr _ _, SlotRole.addrR => some addr
  | MInst.load _ _ offset _, SlotRole.offR => some offset
  | MInst.store data _ _ _, SlotRole.dataR => some data
  | MInst.store _ addr _ _, SlotRole.addrR => some addr
  | MInst.store _ _ offset _, SlotRole.offR => some offset
  | MInst.compare lhs _, SlotRole.lhsR => some lhs
  | MInst.compare _ rhs, SlotRole.rhsR => some rhs
  | MInst.global dst, SlotRole.dstR => some dst
  | _, _ => none

/-- Writing one operand slot of an instruction (the C++ pass writes through
the pointers returned by get_def_use_ptr); an invalid role leaves the
instruction unchanged. -/
def setSlotInst (inst : MInst) (r : SlotRole) (op : MachineOperand) : MInst :=
  match inst, r with
  | MInst.binary _ lhs rhs, SlotRole.dstR => MInst.binary op lhs rhs
  | MInst.binary dst _ rhs, SlotRole.lhsR => MInst.binary dst op rhs
  | MInst.binary dst lhs _, SlotRole.rhsR => MInst.binary dst lhs op
  | MInst.longMul _ lhs rhs, SlotRole.dstR => MInst.longMul op lhs rhs
  | MInst.longMul dst _ rhs, SlotRole.lhsR => MInst.longMul dst op rhs
  | MInst.longMul dst lhs _, SlotRole.rhsR => MInst.longMul dst lhs op
  | MInst.fma _ lhs rhs acc, SlotRole.dstR => MInst.fma op lhs rhs acc
  | MInst.fma dst _ rhs acc, SlotRole.lhsR => MInst.fma dst op rhs acc
  | MInst.fma dst lhs _ acc, SlotRole.rhsR => MInst.fma dst lhs op acc
  | MInst.fma dst lhs rhs _, SlotRole.accR => MInst.fma dst lhs rhs op
  | MInst.move _ rhs, SlotRole.dstR => MInst.move op rhs
  | MInst.move dst _, SlotRole.rhsR => MInst.move dst op
  | MInst.load _ addr offset sh, SlotRole.dstR => MInst.load op addr offset sh
  | MInst.load dst _ offset sh, SlotRole.addrR => MInst.load dst op offset sh
  | MInst.load dst addr _ sh, SlotRole.offR => MInst.load dst addr op sh
  | MInst.store _ addr offset sh, SlotRole.dataR => MInst.store op addr offset sh
  | MInst.store data _ offset sh, SlotRole.addrR => MInst.store data op offset sh
  | MInst.store data addr _ sh, SlotRole.offR => MInst.store data addr op sh
  | MInst.compare _ rhs, SlotRole.lhsR => MInst.compare op rhs
  | MInst.compare lhs _, SlotRole.rhsR => MInst.compare lhs op
  | MInst.global _, SlotRole.dstR => MInst.global op
  | i, _ => i

/-- C8: for a call, get_def_use uses the leading argument registers limited
to min(parameter count, 4) and defines r0-r3, lr and ip; for a return it
uses the single return-value register r0 and defines nothing. -/
theorem get_def_use_call_ret (n : Nat) :
    (get_def_use (MInst.call n)).2
        = [MachineOperand.R 0, MachineOperand.R 1, MachineOperand.R 2,
           MachineOperand.R 3].take (min n 4)
    ∧ (get_def_use (MInst.call n)).1
        = [MachineOperand.R 0, MachineOperand.R 1, MachineOperand.R 2,
           MachineOperand.R 3, MachineOperand.R ArmReg.lr, MachineOperand.R ArmReg.ip]
    ∧ (get_def_use (MInst.call n)).2.length = min n 4
    ∧ get_def_use MInst.ret = ([], [MachineOperand.R ArmReg.r0]) := by
  refine ⟨?_, by simp [get_def_use, ArmReg.r0, List.range_succ], ?_, rfl⟩
  · match n with
    | 0 => rfl
    | 1 => rfl
    | 2 => rfl
    | 3 => rfl
    | (m + 4) =>
        have h4 : min (m + 4) 4 = 4 := by omega
        simp [get_def_use, h4, List.range_succ, ArmReg.r0]
  · simp [get_def_use]

/-- Translation of the generate_access_offset lambda (lines 439-448): the
result of choosing an addressing mode for a spill slot at the given stack
offset, given the current fresh-virtual-register counter. -/
structure AccessOffset where
  offsetOp : MachineOperand
  moveInst : Option MInst
  vmax : Nat
deriving DecidableEq, Repr

/-- Translation of generate_access_offset: an offset below 2^12 is used as an
immediate; otherwise a move materializing the offset into a fresh virtual
register is inserted before the access and the access addresses via that
register. -/
def generate_access_offset (offset : Nat) (vmax : Nat) : AccessOffset :=
  if offset < 2 ^ 12 then
    ⟨MachineOperand.I offset, none, vmax⟩
  else
    ⟨MachineOperand.V vmax,
     some (MInst.move (MachineOperand.V vmax) (MachineOperand.I offset)),
     vmax + 1⟩

/-- C6: a stack offset below 2^12 is encoded as an immediate offset of the
access (offset 4000 in particular), and an offset of 2^12 or more (such as
5000) instead inserts one move materializing the offset into a fresh
virtual register, which becomes the access's offset operand. -/
theorem generate_access_offset_imm12 (offset vmax : Nat) :
    ((generate_access_offset offset vmax).moveInst = none ↔ offset < 2 ^ 12)
    ∧ (generate_access_offset offset vmax
        = if offset < 2 ^ 12 then ⟨MachineOperand.I offset, none, vmax⟩
          else ⟨MachineOperand.V vmax,
                some (MInst.move (MachineOperand.V vmax) (MachineOperand.I offset)),
                vmax + 1⟩)
    ∧ generate_access_offset 4000 7 = ⟨MachineOperand.I 4000, none, 7⟩
    ∧ generate_access_offset 5000 7
        = ⟨MachineOperand.V 7,
           some (MInst.move (MachineOperand.V 7) (MachineOperand.I 5000)), 8⟩ := by
  refine ⟨?_, rfl, by decide, by decide⟩
  unfold generate_access_offset
  split <;> simp_all

/-!  Basic lists: blocks, functions, and small getD/set helper lemmas. -/

/-- Modelled from the spec: a basic block has an ordered instruction list,
up to two successor edges (as indices into the function's block list), and
the four liveness sets; the block-local def set is named bdef here because
def is a Lean keyword. -/
structure MachineBB where
  insts : List MInst
  succ0 : Option Nat
  succ1 : Option Nat
  liveuse : Finset MachineOperand
  bdef : Finset MachineOperand
  livein : Finset MachineOperand
  liveout : Finset MachineOperand

instance : Inhabited MachineBB := ⟨⟨[], none, none, ∅, ∅, ∅, ∅⟩⟩

instance : DecidableEq MachineBB := fun a b =>
  decidable_of_iff
    (a.insts = b.insts ∧ a.succ0 = b.succ0 ∧ a.succ1 = b.succ1
      ∧ a.liveuse = b.liveuse ∧ a.bdef = b.bdef ∧ a.livein = b.livein
      ∧ a.liveout = b.liveout)
    (by cases a; cases b; simp)

/-- Modelled from the spec: a function is an ordered block list (entry
first), a monotone virtual-register counter and a stack-frame size. -/
structure MachineFunc where
  bb : List MachineBB
  stack_size : Nat
  virtual_max : Nat

instance : DecidableEq MachineFunc := fun a b =>
  decidable_of_iff
    (a.bb = b.bb ∧ a.stack_size = b.stack_size ∧ a.virtual_max = b.virtual_max)
    (by cases a; cases b; simp)

instance : DecidableEq (Option MachineFunc) := fun a b =>
  match a, b with
  | none, none => isTrue rfl
  | some x, some y => decidable_of_iff (x = y) (by simp)
  | none, some _ => isFalse (by simp)
  | some _, none => isFalse (by simp)

/-- The part of a block the liveness analysis reads: instructions and
successor edges. -/
structure BlockCode where
  insts : List MInst
  succ0 : Option Nat
  succ1 : Option Nat
deriving DecidableEq

instance : Inhabited BlockCode := ⟨⟨[], none, none⟩⟩

/-- One block's four liveness sets. -/
structure LiveInfo where
  liveuse : Finset MachineOperand
  bdef : Finset MachineOperand
  livein : Finset MachineOperand
  liveout : Finset MachineOperand

instance : DecidableEq LiveInfo := fun a b =>
  decidable_of_iff
    (a.liveuse = b.liveuse ∧ a.bdef = b.bdef ∧ a.livein = b.livein
      ∧ a.liveout = b.liveout)
    (by cases a; cases b; simp)

instance : Inhabited LiveInfo := ⟨⟨∅, ∅, ∅, ∅⟩⟩

/-- Code projection of one block. -/
def blockCodeOf (b : MachineBB) : BlockCode := ⟨b.insts, b.succ0, b.succ1⟩

/-- Code projection of a function's block list. -/
def projF (f : MachineFunc) : List BlockCode := f.bb.map blockCodeOf

/-- The non-null successors of a block, in array order succ[0], succ[1]. -/
def succListBC (b : BlockCode) : List Nat := b.succ0.toList ++ b.succ1.toList

theorem getD_set_self {α : Type} (l : List α) (i : Nat) (a d : α)
    (h : i < l.length) : (l.set i a).getD i d = a := by
  induction l generalizing i with
  | nil => simp at h
  | cons x t ih =>
      cases i with
      | zero => rfl
      | succ j => exact ih j (by simpa using h)

theorem getD_set_ne {α : Type} (l : List α) (i j : Nat) (a d : α)
    (h : i ≠ j) : (l.set i a).getD j d = l.getD j d := by
  induction l generalizing i j with
  | nil => simp
  | cons x t ih =>
      cases i with
      | zero => cases j with
          | zero => exact absurd rfl h
          | succ k => rfl
      | succ i0 => cases j with
          | zero => rfl
          | succ k => exact ih i0 k (by omega)

theorem getD_map_lt {α β : Type} (f : α → β) (l : List α) (i : Nat) (d : α) (d2 : β)
    (h : i < l.length) : (l.map f).getD i d2 = f (l.getD i d) := by
  induction l generalizing i with
  | nil => simp at h
  | cons x t ih =>
      cases i with
      | zero => rfl
      | succ j => exact ih j (by simpa using h)

theorem getD_len_le {α : Type} (l : List α) (i : Nat) (d : α)
    (h : l.length ≤ i) : l.getD i d = d := by
  induction l generalizing i with
  | nil => simp [List.getD]
  | cons x t ih =>
      cases i with
      | zero => simp at h
      | succ j => exact ih j (by simpa using h)

theorem getD_zipWith {α β γ : Type} (f : α → β → γ) (l1 : List α) (l2 : List β)
    (i : Nat) (d1 : α) (d2 : β) (d3 : γ) (h1 : i < l1.length) (h2 : i < l2.length) :
    (List.zipWith f l1 l2).getD i d3 = f (l1.getD i d1) (l2.getD i d2) := by
  induction l1 generalizing l2 i with
  | nil => simp at h1
  | cons x t ih =>
      cases l2 with
      | nil => simp at h2
      | cons y t2 =>
          cases i with
          | zero => rfl
          | succ j => exact ih t2 j (by simpa using h1) (by simpa using h2)

/-!  Translation of liveness_analysis (lines 94-147). -/

/-- The liveuse loop of the per-block local pass (lines 104-108): colorable
uses not yet locally defined enter liveuse. -/
def liveuseFold (bdef lu : Finset MachineOperand) (uses : List MachineOperand) :
    Finset MachineOperand :=
  uses.foldl
    (fun (lu : Finset MachineOperand) x =>
      if x.needs_color ∧ x ∉ bdef then insert x lu else lu) lu

/-- The def-set loop of the local pass (lines 110-114). -/
def defFold (lu de : Finset MachineOperand) (defs : List MachineOperand) :
    Finset MachineOperand :=
  defs.foldl
    (fun (de : Finset MachineOperand) x =>
      if x.needs_color ∧ x ∉ lu then insert x de else de) de

/-- One instruction of the local pass. -/
def localStep (st : Finset MachineOperand × Finset MachineOperand) (inst : MInst) :
    Finset MachineOperand × Finset MachineOperand :=
  let du := get_def_use inst
  let lu := liveuseFold st.2 st.1 du.2
  (lu, defFold lu st.2 du.1)

/-- Fold of the local pass over the block's instructions. -/
def computeLocal (insts : List MInst) : Finset MachineOperand × Finset MachineOperand :=
  insts.foldl localStep (∅, ∅)

/-- Initial liveness state (line 117-118): livein = liveuse, liveout = ∅. -/
def livenessInit (l : List BlockCode) : List LiveInfo :=
  l.map (fun b =>
    let lu := computeLocal b.insts
    ⟨lu.1, lu.2, lu.1, ∅⟩)

/-- The union of the successors' livein sets (lines 126-131). -/
def newOutAt (l : List BlockCode) (st : List LiveInfo) (i : Nat) : Finset MachineOperand :=
  (succListBC (l.getD i default)).foldl (fun s j => s ∪ (st.getD j default).livein) ∅

/-- One block of one fixpoint pass (lines 126-144): if the recomputed
liveout differs, store it and recompute livein = liveuse ∪ (liveout − def),
recording that something changed. -/
def livenessStep (l : List BlockCode) (acc : List LiveInfo × Bool) (i : Nat) :
    List LiveInfo × Bool :=
  if newOutAt l acc.1 i = (acc.1.getD i default).liveout then acc
  else
    (acc.1.set i
      ⟨(acc.1.getD i default).liveuse, (acc.1.getD i default).bdef,
       (acc.1.getD i default).liveuse ∪ (newOutAt l acc.1 i \ (acc.1.getD i default).bdef),
       newOutAt l acc.1 i⟩,
     true)

/-- One full fixpoint pass over the blocks in list order. -/
def livenessPass (l : List BlockCode) (st : List LiveInfo) : List LiveInfo × Bool :=
  (List.range l.length).foldl (livenessStep l) (st, false)

/-- The while(changed) loop (lines 122-146), with explicit fuel; it returns
the state of the pass that changed nothing. -/
def liveLoop (l : List BlockCode) : Nat → List LiveInfo → Option (List LiveInfo)
  | 0, _ => none
  | fuel + 1, st =>
      let p := livenessPass l st
      if p.2 then liveLoop l fuel p.1 else some p.1

/-- Fuel bound for the fixpoint loop (the source loop terminates because the
sets grow monotonically inside a finite universe; the bound here is a
generous function of the code size). -/
def liveFuel (l : List BlockCode) : Nat :=
  2 * (l.length + 1) * (l.foldl (fun n b => n + b.insts.length * 10 + 1) 0 + 1) + 2

/-- Liveness analysis on the code projection: local sets, initialization,
then the fixpoint loop. -/
def analyzeCore (l : List BlockCode) : Option (List LiveInfo) :=
  liveLoop l (liveFuel l) (livenessInit l)

/-- Installing computed liveness sets into a block. -/
def installLive (b : MachineBB) (ci : LiveInfo) : MachineBB :=
  ⟨b.insts, b.succ0, b.succ1, ci.liveuse, ci.bdef, ci.livein, ci.liveout⟩

/-- Translation of liveness_analysis (lines 94-147): recompute every block's
liveuse/def from scratch, initialize livein/liveout, and iterate the
dataflow equations until no set changes (none when the fuel runs out,
which the source's termination argument rules out). -/
def liveness_analysis (f : MachineFunc) : Option MachineFunc :=
  match analyzeCore (projF f) with
  | none => none
  | some c => some { f with bb := List.zipWith installLive f.bb c }

/-- Block accessor used to state liveness properties. -/
def bbAt (f : MachineFunc) (i : Nat) : MachineBB := f.bb.getD i default

/-- The union of the livein sets of a block's successors, on a function. -/
def succUnionAt (f : MachineFunc) (i : Nat) : Finset MachineOperand :=
  (succListBC (blockCodeOf (bbAt f i))).foldl
    (fun s j => s ∪ (bbAt f j).livein) ∅

/-!  Liveness: the fixpoint equations hold when the loop exits, and a second
run reproduces the same sets. -/

/-- The livein equation maintained by initialization and every update. -/
def liveEq (st : List LiveInfo) : Prop :=
  ∀ i, i < st.length →
    (st.getD i default).livein
      = (st.getD i default).liveuse
        ∪ ((st.getD i default).liveout \ (st.getD i default).bdef)

theorem set_len_le {α : Type} (l : List α) (i : Nat) (a : α)
    (h : l.length ≤ i) : l.set i a = l := by
  induction l generalizing i with
  | nil => rfl
  | cons x t ih =>
      cases i with
      | zero => simp at h
      | succ j => simp [List.set, ih j (by simpa using h)]

theorem foldlStep_true (l : List BlockCode) (L : List Nat)
    (acc : List LiveInfo × Bool) (h : acc.2 = true) :
    (L.foldl (livenessStep l) acc).2 = true := by
  induction L generalizing acc with
  | nil => simpa using h
  | cons i L ih =>
      rw [List.foldl_cons]
      apply ih
      unfold livenessStep
      split
      · exact h
      · rfl

theorem foldlStep_false (l : List BlockCode) (L : List Nat)
    (st st2 : List LiveInfo)
    (h : L.foldl (livenessStep l) (st, false) = (st2, false)) :
    st2 = st ∧ ∀ i ∈ L, newOutAt l st i = (st.getD i default).liveout := by
  induction L generalizing st with
  | nil =>
      simp only [List.foldl_nil, Prod.mk.injEq] at h
      exact ⟨h.1.symm, by simp⟩
  | cons i L ih =>
      rw [List.foldl_cons] at h
      rcases hs : livenessStep l (st, false) i with ⟨st1, b1⟩
      rw [hs] at h
      unfold livenessStep at hs
      split at hs
      next hc =>
        injection hs with hA hB
        subst hA
        subst hB
        obtain ⟨h1, h2⟩ := ih st h
        refine ⟨h1, ?_⟩
        intro j hj
        rcases List.mem_cons.mp hj with hj | hj
        · subst hj
          exact hc
        · exact h2 j hj
      next hc =>
        injection hs with hA hB
        have htr := foldlStep_true l L (st1, b1) (by rw [← hB])
        rw [h] at htr
        simp at htr

theorem liveEq_step (l : List BlockCode) (acc : List LiveInfo × Bool) (i : Nat)
    (h : liveEq acc.1) :
    liveEq (livenessStep l acc i).1
    ∧ (livenessStep l acc i).1.length = acc.1.length := by
  unfold livenessStep
  split
  · exact ⟨h, rfl⟩
  · refine ⟨?_, List.length_set _ _ _⟩
    intro j hj
    rw [List.length_set] at hj
    by_cases hij : i = j
    · subst hij
      by_cases hlt : i < acc.1.length
      · rw [getD_set_self _ _ _ _ hlt]
      · exact absurd hj hlt
    · rw [getD_set_ne _ _ _ _ _ hij]
      exact h j hj

theorem liveEq_foldl (l : List BlockCode) (L : List Nat)
    (acc : List LiveInfo × Bool) (h : liveEq acc.1) :
    liveEq (L.foldl (livenessStep l) acc).1
    ∧ (L.foldl (livenessStep l) acc).1.length = acc.1.length := by
  induction L generalizing acc with
  | nil => exact ⟨h, rfl⟩
  | cons i L ih =>
      rw [List.foldl_cons]
      obtain ⟨h1, h2⟩ := liveEq_step l acc i h
      obtain ⟨h3, h4⟩ := ih (livenessStep l acc i) h1
      exact ⟨h3, h4.trans h2⟩

theorem livenessInit_length (l : List BlockCode) :
    (livenessInit l).length = l.length := by
  simp [livenessInit]

theorem liveEq_init (l : List BlockCode) : liveEq (livenessInit l) := by
  intro i hi
  rw [livenessInit_length] at hi
  unfold livenessInit
  rw [getD_map_lt _ _ _ default _ hi]
  simp

theorem liveLoop_exit (l : List BlockCode) (fuel : Nat) (st c : List LiveInfo)
    (h : liveLoop l fuel st = some c) :
    livenessPass l c = (c, false) := by
  induction fuel generalizing st with
  | zero => simp [liveLoop] at h
  | succ fuel ih =>
      rcases hP : livenessPass l st with ⟨st1, b⟩
      simp only [liveLoop, hP] at h
      cases b with
      | true => exact ih st1 (by simpa using h)
      | false =>
          simp only [Bool.false_eq_true, if_false, Option.some.injEq] at h
          subst h
          have hff := foldlStep_false l (List.range l.length) st st1
            (by simpa [livenessPass] using hP)
          obtain ⟨he, _⟩ := hff
          subst he
          exact hP

theorem liveLoop_keeps (l : List BlockCode) (fuel : Nat) (st c : List LiveInfo)
    (h : liveLoop l fuel st = some c) (he : liveEq st) :
    liveEq c ∧ c.length = st.length := by
  induction fuel generalizing st with
  | zero => simp [liveLoop] at h
  | succ fuel ih =>
      rcases hP : livenessPass l st with ⟨st1, b⟩
      have hfold := liveEq_foldl l (List.range l.length) (st, false) he
      rw [show (List.range l.length).foldl (livenessStep l) (st, false)
            = livenessPass l st from rfl, hP] at hfold
      simp only at hfold
      simp only [liveLoop, hP] at h
      cases b with
      | true =>
          obtain ⟨h1, h2⟩ := ih st1 (by simpa using h) hfold.1
          exact ⟨h1, h2.trans hfold.2⟩
      | false =>
          simp only [Bool.false_eq_true, if_false, Option.some.injEq] at h
          subst h
          exact hfold

theorem map_code_zip (bs : List MachineBB) (cs : List LiveInfo)
    (h : bs.length = cs.length) :
    (List.zipWith installLive bs cs).map blockCodeOf = bs.map blockCodeOf := by
  induction bs generalizing cs with
  | nil => rfl
  | cons b bs ih =>
      cases cs with
      | nil => simp at h
      | cons ci cs =>
          simp only [List.zipWith_cons_cons, List.map_cons]
          refine congrArg₂ _ rfl (ih cs (by simpa using h))

theorem zip_install_idem (bs : List MachineBB) (cs : List LiveInfo) :
    List.zipWith installLive (List.zipWith installLive bs cs) cs
      = List.zipWith installLive bs cs := by
  induction bs generalizing cs with
  | nil => rfl
  | cons b bs ih =>
      cases cs with
      | nil => rfl
      | cons ci cs =>
          simp only [List.zipWith_cons_cons, ih]
          rfl

/-- C4: when liveness_analysis returns, every block satisfies the dataflow
fixpoint equations — liveout is the union of the successors' livein sets
and livein = liveuse ∪ (liveout − def) — and running liveness_analysis a
second time on the same instruction stream reproduces exactly the same
livein/liveout sets (the loop exits only when a full pass changes
nothing). -/
theorem liveness_analysis_fixpoint (f g : MachineFunc)
    (h : liveness_analysis f = some g) :
    (∀ i, i < g.bb.length →
        (bbAt g i).liveout = succUnionAt g i
        ∧ (bbAt g i).livein
            = (bbAt g i).liveuse ∪ ((bbAt g i).liveout \ (bbAt g i).bdef))
    ∧ liveness_analysis g = some g := by
  rcases hac : analyzeCore (projF f) with _ | c
  · unfold liveness_analysis at h
    rw [hac] at h
    cases h
  · unfold liveness_analysis at h
    rw [hac] at h
    simp only [Option.some.injEq] at h
    subst h
    have hac2 : liveLoop (projF f) (liveFuel (projF f)) (livenessInit (projF f)) = some c := hac
    have hkeep := liveLoop_keeps (projF f) (liveFuel (projF f)) (livenessInit (projF f)) c
      hac2 (liveEq_init _)
    have hle : liveEq c := hkeep.1
    have hcl : c.length = (projF f).length := by
      rw [hkeep.2, livenessInit_length]
    have hpl : (projF f).length = f.bb.length := by simp [projF]
    have hpass : livenessPass (projF f) c = (c, false) :=
      liveLoop_exit (projF f) (liveFuel (projF f)) (livenessInit (projF f)) c hac2
    have hfix := (foldlStep_false (projF f) (List.range (projF f).length) c c hpass).2
    have hbbl : (List.zipWith installLive f.bb c).length = f.bb.length := by
      rw [List.length_zipWith]
      omega
    have hbbAt : ∀ j, j < f.bb.length →
        bbAt { f with bb := List.zipWith installLive f.bb c } j
          = installLive (f.bb.getD j default) (c.getD j default) := by
      intro j hj
      unfold bbAt
      exact getD_zipWith installLive f.bb c j default default default hj (by omega)
    have hlive : ∀ j,
        (bbAt { f with bb := List.zipWith installLive f.bb c } j).livein
          = (c.getD j default).livein := by
      intro j
      by_cases hj : j < f.bb.length
      · rw [hbbAt j hj]
        rfl
      · unfold bbAt
        rw [getD_len_le _ _ _ (by simpa [hbbl] using hj),
            getD_len_le c j default (by omega)]
        rfl
    constructor
    · intro i hi
      rw [hbbl] at hi
      constructor
      · rw [hbbAt i hi]
        show (c.getD i default).liveout = _
        unfold succUnionAt
        have hcode : blockCodeOf (bbAt { f with bb := List.zipWith installLive f.bb c } i)
            = (projF f).getD i default := by
          rw [hbbAt i hi]
          show blockCodeOf (f.bb.getD i default) = _
          unfold projF
          rw [getD_map_lt blockCodeOf f.bb i default default hi]
        rw [hcode]
        have hfun : (fun (s : Finset MachineOperand) j =>
              s ∪ (bbAt { f with bb := List.zipWith installLive f.bb c } j).livein)
            = fun s j => s ∪ (c.getD j default).livein := by
          funext s j
          rw [hlive j]
        rw [hfun]
        exact (hfix i (List.mem_range.mpr (by omega))).symm
      · rw [hbbAt i hi]
        show (c.getD i default).livein = (c.getD i default).liveuse
          ∪ ((c.getD i default).liveout \ (c.getD i default).bdef)
        exact hle i (by omega)
    · have hproj : projF { f with bb := List.zipWith installLive f.bb c } = projF f := by
        show (List.zipWith installLive f.bb c).map blockCodeOf = projF f
        rw [map_code_zip f.bb c (by omega)]
        rfl
      unfold liveness_analysis
      rw [hproj, hac]
      simp only [Option.some.injEq]
      congr 1
      exact zip_install_idem f.bb c

/-- A two-block example function: entry compares two virtual registers and
falls through to a return. -/
def fEx : MachineFunc :=
  ⟨[⟨[MInst.compare (MachineOperand.V 1) (MachineOperand.V 2)], some 1, none, ∅, ∅, ∅, ∅⟩,
    ⟨[MInst.ret], none, none, ∅, ∅, ∅, ∅⟩], 0, 0⟩

/-- The example function with its computed liveness sets installed. -/
def gEx : MachineFunc :=
  ⟨[⟨[MInst.compare (MachineOperand.V 1) (MachineOperand.V 2)], some 1, none,
     {MachineOperand.V 1, MachineOperand.V 2}, ∅,
     {MachineOperand.V 1, MachineOperand.V 2, MachineOperand.R 0},
     {MachineOperand.R 0}⟩,
    ⟨[MInst.ret], none, none, {MachineOperand.R 0}, ∅, {MachineOperand.R 0}, ∅⟩],
   0, 0⟩

/-- Witness for C4 at a concrete two-block function. -/
theorem liveness_analysis_fixpoint_witness :
    ((bbAt gEx 0).liveout = succUnionAt gEx 0
      ∧ (bbAt gEx 0).livein
          = (bbAt gEx 0).liveuse ∪ ((bbAt gEx 0).liveout \ (bbAt gEx 0).bdef))
    ∧ liveness_analysis gEx = some gEx :=
  ⟨(liveness_analysis_fixpoint fEx gEx (by decide)).1 0 (by decide),
   (liveness_analysis_fixpoint fEx gEx (by decide)).2⟩

/-!  Translation of the spill rewriting loop (lines 431-512). -/

/-- State of the spill-rewrite walk over one block (lines 450-507): the
instruction list with matched slots rewritten in place, the pending load and
store points, the open reload virtual register (none encodes the source's
vreg == -1), the virtual-register counter, the recorded load/store
insertions keyed by the original instruction index they attach to, and two
ghost fields — the index at which the open register was opened and the
(opened, flushed) index pairs of every checkpoint that flushed an open
register. -/
structure SpillWalk where
  insts : List MInst
  first_use : Option Nat
  last_def : Option Nat
  vreg : Option Nat
  openedAt : Option Nat
  vmax : Nat
  loadsBefore : List (Nat × List MInst)
  storesAfter : List (Nat × List MInst)
  events : List (Nat × Nat)

/-- Translation of the checkpoint lambda (lines 454-476): if a load is
pending, insert a load (preceded by the offset-materializing move when the
offset needs one) before the first recorded use; if a store is pending,
insert a store after the last recorded def; then close the open reload
register.  atIdx is the loop position of this call, recorded in the ghost
event list when a register was open. -/
def checkpoint_flush (offset : Nat) (atIdx : Nat) (st : SpillWalk) : SpillWalk :=
  let st1 := match st.first_use with
    | some fu =>
        let ao := generate_access_offset offset st.vmax
        { st with
            vmax := ao.vmax,
            loadsBefore := st.loadsBefore
              ++ [(fu, ao.moveInst.toList
                    ++ [MInst.load (MachineOperand.V (st.vreg.getD 0))
                          (MachineOperand.R ArmReg.sp) ao.offsetOp 0])],
            first_use := none }
    | none => st
  let st2 := match st1.last_def with
    | some ld =>
        let ao := generate_access_offset offset st1.vmax
        { st1 with
            vmax := ao.vmax,
            storesAfter := st1.storesAfter
              ++ [(ld, ao.moveInst.toList
                    ++ [MInst.store (MachineOperand.V (st1.vreg.getD 0))
                          (MachineOperand.R ArmReg.sp) ao.offsetOp 0])],
            last_def := none }
    | none => st1
  { st2 with
      vreg := none, openedAt := none,
      events := match st2.vreg with
        | some _ => st2.events ++ [(st2.openedAt.getD 0, atIdx)]
        | none => st2.events }

/-- The def branch of the walk (lines 481-488): on a def of the spilled
operand, open a fresh reload register if none is open, rewrite the slot's
value to it, and record this instruction as the pending store point. -/
def spillDefStep (n : MachineOperand) (i : Nat) (r : SlotRole) (st : SpillWalk) :
    SpillWalk :=
  let inst := st.insts.getD i default
  if getSlotInst inst r = some n then
    match st.vreg with
    | some vr =>
        { st with
            insts := st.insts.set i (setSlotInst inst r ⟨n.state, (vr : Int)⟩),
            last_def := some i }
    | none =>
        { st with
            vmax := st.vmax + 1, vreg := some st.vmax, openedAt := some i,
            insts := st.insts.set i (setSlotInst inst r ⟨n.state, (st.vmax : Int)⟩),
            last_def := some i }
  else st

/-- The use branch of the walk (lines 490-501): on a use of the spilled
operand, open a fresh reload register if needed, rewrite the slot, and if
neither a use nor a def is pending record this instruction as the pending
load point. -/
def spillUseStep (n : MachineOperand) (i : Nat) (st : SpillWalk) (r : SlotRole) :
    SpillWalk :=
  let inst := st.insts.getD i default
  if getSlotInst inst r = some n then
    match st.vreg with
    | some vr =>
        let st1 := { st with
            insts := st.insts.set i (setSlotInst inst r ⟨n.state, (vr : Int)⟩) }
        if st1.first_use = none ∧ st1.last_def = none
        then { st1 with first_use := some i } else st1
    | none =>
        let st1 := { st with
            vmax := st.vmax + 1, vreg := some st.vmax, openedAt := some i,
            insts := st.insts.set i (setSlotInst inst r ⟨n.state, (st.vmax : Int)⟩) }
        if st1.first_use = none ∧ st1.last_def = none
        then { st1 with first_use := some i } else st1
  else st

/-- The def/use handling of one instruction of the walk (lines 480-501). -/
def spillDefUse (n : MachineOperand) (st : SpillWalk) (i : Nat) : SpillWalk :=
  let inst := st.insts.getD i default
  let du := get_def_use_ptr inst
  let st1 := match du.1 with
    | some r => spillDefStep n i r st
    | none => st
  du.2.foldl (spillUseStep n i) st1

/-- One full loop iteration (lines 479-507): def/use handling followed by
the post-increment counter check `if (i++ > 30) checkpoint()`.  The source
walks the live list, so just-inserted store/move instructions are also
visited and counted; that happens only in the region where the counter
already exceeds 30 and the checkpoint fires after every instruction, and
those inserted instructions never mention the spilled operand, so indexing
by original positions is behaviorally equivalent. -/
def spillInstStep (n : MachineOperand) (offset : Nat) (st : SpillWalk) (i : Nat) :
    SpillWalk :=
  let st1 := spillDefUse n st i
  if 30 < i then checkpoint_flush offset i st1 else st1

/-- The load/store insertions attached to one original index. -/
def editsAt (l : List (Nat × List MInst)) (i : Nat) : List MInst :=
  (l.filter (fun e => e.1 = i)).foldl (fun acc e => acc ++ e.2) []

/-- Splicing the recorded insertions around the rewritten instructions: the
loads go immediately before their first-use instruction, the stores
immediately after their last-def instruction. -/
def spliceEdits (insts : List MInst) (lb sa : List (Nat × List MInst)) : List MInst :=
  insts.enum.foldl
    (fun acc p => acc ++ editsAt lb p.1 ++ [p.2] ++ editsAt sa p.1) []

/-- Result of rewriting one block for one spilled operand. -/
structure SpillBBResult where
  insts : List MInst
  vmax : Nat
  events : List (Nat × Nat)

/-- Translation of the per-block spill rewrite (lines 435-510): walk the
instructions in order with the checkpoint counter, flush once more at block
end, and splice the recorded load/store insertions into the stream. -/
def spill_rewrite_bb (n : MachineOperand) (offset : Nat) (insts : List MInst)
    (vmax : Nat) : SpillBBResult :=
  let st0 : SpillWalk := ⟨insts, none, none, none, none, vmax, [], [], []⟩
  let st1 := (List.range insts.length).foldl (spillInstStep n offset) st0
  let st2 := checkpoint_flush offset insts.length st1
  ⟨spliceEdits st2.insts st2.loadsBefore st2.storesAfter, st2.vmax, st2.events⟩

/-- Translation of the per-operand spill loop body (lines 431-512): rewrite
every block at the current frame offset, then grow the frame by 4 bytes
(the offset read inside the block loop equals the function's stack size,
which only changes after all blocks are rewritten). -/
def spill_rewrite_one (n : MachineOperand) (f : MachineFunc) : MachineFunc :=
  let res := f.bb.foldl
    (fun (acc : List MachineBB × Nat) b =>
      let r := spill_rewrite_bb n f.stack_size b.insts acc.2
      (acc.1 ++ [{ b with insts := r.insts }], r.vmax))
    ([], f.virtual_max)
  { bb := res.1, stack_size := f.stack_size + 4, virtual_max := res.2 }

/-- Translation of the spilled-node loop (line 431): process the spilled
operands in order, pairing each with the stack offset it was rewritten at
(the ghost second component records those offsets). -/
def spillStep (acc : MachineFunc × List Nat) (n : MachineOperand) :
    MachineFunc × List Nat :=
  (spill_rewrite_one n acc.1, acc.2 ++ [acc.1.stack_size])

/-- The fold of the spilled-node loop over the spilled operands. -/
def spill_rewrite (spilled : List MachineOperand) (f : MachineFunc) :
    MachineFunc × List Nat :=
  spilled.foldl spillStep (f, [])

/-- A 34-instruction block whose only occurrences of the spilled operand are
two adjacent uses at indices 32 and 33 (0-based). -/
def prog34 : List MInst :=
  List.replicate 32 (MInst.compare (MachineOperand.I 0) (MachineOperand.I 0))
    ++ [MInst.compare (MachineOperand.V 100) (MachineOperand.V 100),
        MInst.compare (MachineOperand.V 100) (MachineOperand.V 100)]

/-- Counterexample to C5 as stated: the checkpoint counter counts
instructions from the start of the block, not since the reload register was
opened.  In prog34 a reload register is opened at index 32 and flushed at
index 32 — zero instructions after opening and not at block end (the block
has 34 instructions) — and the adjacent use at 33 gets a second, distinct
reload register (the counter grows from 200 to 202), where the claimed
trigger rule would keep one register open until block end. -/
theorem checkpoint_window_counterexample :
    (spill_rewrite_bb (MachineOperand.V 100) 0 prog34 200).events = [(32, 32), (33, 33)]
    ∧ prog34.length = 34
    ∧ (spill_rewrite_bb (MachineOperand.V 100) 0 prog34 200).vmax = 202
    ∧ 32 - 32 ≤ 30 := by
  refine ⟨by decide, by decide, by decide, by decide⟩

/-- Ghost bookkeeping of one rewrite sub-step at loop index i: events are
untouched, and an open register either stays open with its opening index or
was just opened at i. -/
def GhostStep (i : Nat) (st st' : SpillWalk) : Prop :=
  st'.events = st.events
  ∧ (st'.vreg.isSome = true →
      (st'.openedAt = st.openedAt ∧ st.vreg.isSome = true) ∨ st'.openedAt = some i)

theorem ghost_refl (i : Nat) (st : SpillWalk) : GhostStep i st st :=
  ⟨rfl, fun h => Or.inl ⟨rfl, h⟩⟩

theorem ghost_trans (i : Nat) (a b c : SpillWalk)
    (h1 : GhostStep i a b) (h2 : GhostStep i b c) : GhostStep i a c := by
  refine ⟨h2.1.trans h1.1, fun hc => ?_⟩
  rcases h2.2 hc with ⟨he, hb⟩ | h
  · rcases h1.2 hb with ⟨he2, ha⟩ | h
    · exact Or.inl ⟨he.trans he2, ha⟩
    · exact Or.inr (he.trans h)
  · exact Or.inr h

theorem ghost_defStep (n : MachineOperand) (i : Nat) (r : SlotRole) (st : SpillWalk) :
    GhostStep i st (spillDefStep n i r st) := by
  unfold spillDefStep
  dsimp only
  by_cases hA : getSlotInst (st.insts.getD i default) r = some n
  · rw [if_pos hA]
    rcases hv : st.vreg with _ | vr <;> simp only [hv]
    · exact ⟨rfl, fun _ => Or.inr rfl⟩
    · exact ⟨rfl, fun _ => Or.inl ⟨rfl, by simp [hv]⟩⟩
  · rw [if_neg hA]
    exact ghost_refl i st

theorem ghost_useStep (n : MachineOperand) (i : Nat) (st : SpillWalk) (r : SlotRole) :
    GhostStep i st (spillUseStep n i st r) := by
  unfold spillUseStep
  dsimp only
  by_cases hA : getSlotInst (st.insts.getD i default) r = some n
  · rw [if_pos hA]
    rcases hv : st.vreg with _ | vr <;> simp only [hv]
    · split
      · exact ⟨rfl, fun _ => Or.inr rfl⟩
      · exact ⟨rfl, fun _ => Or.inr rfl⟩
    · split
      · exact ⟨rfl, fun _ => Or.inl ⟨rfl, by simp [hv]⟩⟩
      · exact ⟨rfl, fun _ => Or.inl ⟨rfl, by simp [hv]⟩⟩
  · rw [if_neg hA]
    exact ghost_refl i st

theorem ghost_useFold (n : MachineOperand) (i : Nat) (roles : List SlotRole)
    (st : SpillWalk) : GhostStep i st (roles.foldl (spillUseStep n i) st) := by
  induction roles generalizing st with
  | nil => exact ghost_refl i st
  | cons r roles ih =>
      rw [List.foldl_cons]
      exact ghost_trans i st (spillUseStep n i st r) _
        (ghost_useStep n i st r) (ih (spillUseStep n i st r))

theorem ghost_defUse (n : MachineOperand) (st : SpillWalk) (i : Nat) :
    GhostStep i st (spillDefUse n st i) := by
  unfold spillDefUse
  rcases hd : (get_def_use_ptr (st.insts.getD i default)).1 with _ | r
  · simp only [hd]
    exact ghost_useFold n i _ st
  · simp only [hd]
    exact ghost_trans i st (spillDefStep n i r st) _
      (ghost_defStep n i r st) (ghost_useFold n i _ _)

theorem checkpoint_flush_ghost (offset atIdx : Nat) (st : SpillWalk) :
    (checkpoint_flush offset atIdx st).events
      = (if st.vreg.isSome then st.events ++ [(st.openedAt.getD 0, atIdx)] else st.events)
    ∧ (checkpoint_flush offset atIdx st).vreg = none := by
  unfold checkpoint_flush
  rcases hfu : st.first_use with _ | fu <;>
    rcases hld : st.last_def with _ | ld <;>
      rcases hv : st.vreg with _ | vr <;>
        simp [hfu, hld, hv]

/-- Invariant of the rewrite walk after the first m instructions: every
recorded in-loop flush (o, f) happened at an index f with 31 ≤ f < m and
f ≤ max o 31, and any open reload register was opened at some o < m with
m ≤ 31 (an open register never survives an index past 30, because the
checkpoint fires after every such instruction). -/
def WalkInv (m : Nat) (st : SpillWalk) : Prop :=
  (∀ e ∈ st.events, e.1 ≤ e.2 ∧ e.2 ≤ max e.1 31 ∧ 31 ≤ e.2 ∧ e.2 < m)
  ∧ (st.vreg.isSome = true → ∃ o, st.openedAt = some o ∧ o < m ∧ m ≤ 31)

theorem walkInv_step (n : MachineOperand) (offset : Nat) (i : Nat) (st : SpillWalk)
    (h : WalkInv i st) : WalkInv (i + 1) (spillInstStep n offset st i) := by
  obtain ⟨hev, hop⟩ := ghost_defUse n st i
  unfold spillInstStep
  by_cases h30 : 30 < i
  · rw [if_pos h30]
    obtain ⟨hcev, hcv⟩ := checkpoint_flush_ghost offset i (spillDefUse n st i)
    constructor
    · intro e he
      rw [hcev] at he
      by_cases hsome : (spillDefUse n st i).vreg.isSome = true
      · rw [if_pos hsome] at he
        rcases List.mem_append.mp he with he | he
        · rw [hev] at he
          obtain ⟨a, b, c, d⟩ := h.1 e he
          exact ⟨a, b, c, by omega⟩
        · simp only [List.mem_singleton] at he
          subst he
          rcases hop hsome with ⟨heq, hstv⟩ | heq
          · obtain ⟨o, ho, h1, h2⟩ := h.2 hstv
            rw [heq, ho]
            refine ⟨by simp; omega, by simp; omega, by simp; omega, by simp⟩
          · rw [heq]
            refine ⟨by simp, by simp, by simp; omega, by simp⟩
      · rw [if_neg hsome] at he
        rw [hev] at he
        obtain ⟨a, b, c, d⟩ := h.1 e he
        exact ⟨a, b, c, by omega⟩
    · intro hv
      rw [hcv] at hv
      simp at hv
  · rw [if_neg h30]
    constructor
    · intro e he
      rw [hev] at he
      obtain ⟨a, b, c, d⟩ := h.1 e he
      exact ⟨a, b, c, by omega⟩
    · intro hv
      rcases hop hv with ⟨heq, hstv⟩ | heq
      · obtain ⟨o, ho, h1, h2⟩ := h.2 hstv
        exact ⟨o, heq ▸ ho, by omega, by omega⟩
      · exact ⟨i, heq, by omega, by omega⟩

theorem walkInv_fold (n : MachineOperand) (offset : Nat) (cnt start : Nat)
    (st : SpillWalk) (h : WalkInv start st) :
    WalkInv (start + cnt) ((List.range' start cnt).foldl (spillInstStep n offset) st) := by
  induction cnt generalizing start st with
  | zero => simpa using h
  | succ cnt ih =>
      rw [List.range'_succ, List.foldl_cons]
      have h1 := walkInv_step n offset start st h
      have h2 := ih (start + 1) (spillInstStep n offset st start) h1
      have heq : start + 1 + cnt = start + (cnt + 1) := by omega
      rw [heq] at h2
      exact h2

/-- C5 (amended): a checkpoint flush of an open reload register happens
either at an in-loop index f with 31 ≤ f (the counter counts from the start
of the block, firing after every instruction whose 0-based index exceeds
30) or at block end; in every case the register was opened at some o ≤ f
with f ≤ max o 31, so a reload register spans at most 32 instructions. -/
theorem checkpoint_flush_points (n : MachineOperand) (offset vmax : Nat)
    (insts : List MInst) :
    ∀ e ∈ (spill_rewrite_bb n offset insts vmax).events,
      e.1 ≤ e.2 ∧ e.2 ≤ max e.1 31 ∧ (31 ≤ e.2 ∨ e.2 = insts.length)
        ∧ e.2 ≤ insts.length := by
  intro e he
  unfold spill_rewrite_bb at he
  dsimp only at he
  have h0 : WalkInv 0 ⟨insts, none, none, none, none, vmax, [], [], []⟩ := by
    constructor
    · intro e he
      simp at he
    · intro hv
      simp at hv
  have hinv := walkInv_fold n offset insts.length 0
    ⟨insts, none, none, none, none, vmax, [], [], []⟩ h0
  rw [← List.range_eq_range', Nat.zero_add] at hinv
  obtain ⟨hcev, _⟩ := checkpoint_flush_ghost offset insts.length
    ((List.range insts.length).foldl (spillInstStep n offset)
      ⟨insts, none, none, none, none, vmax, [], [], []⟩)
  rw [hcev] at he
  by_cases hsome : ((List.range insts.length).foldl (spillInstStep n offset)
      ⟨insts, none, none, none, none, vmax, [], [], []⟩).vreg.isSome = true
  · rw [if_pos hsome] at he
    rcases List.mem_append.mp he with he | he
    · obtain ⟨a, b, c, d⟩ := hinv.1 e he
      exact ⟨a, b, Or.inl c, by omega⟩
    · simp only [List.mem_singleton] at he
      subst he
      obtain ⟨o, ho, h1, h2⟩ := hinv.2 hsome
      rw [ho]
      refine ⟨by simp; omega, by simp; omega, Or.inr rfl, by simp⟩
  · rw [if_neg hsome] at he
    obtain ⟨a, b, c, d⟩ := hinv.1 e he
    exact ⟨a, b, Or.inl c, by omega⟩

/-- A five-instruction block with a def of the spilled operand at index 0
and uses before block end; its single flush event is (0, 5), at block end. -/
def prog5 : List MInst :=
  [MInst.move (MachineOperand.V 100) (MachineOperand.I 0),
   MInst.compare (MachineOperand.V 100) (MachineOperand.V 100), MInst.ret,
   MInst.compare (MachineOperand.V 100) (MachineOperand.V 100), MInst.ret]

/-- Witness for the amended C5 at a concrete block: the flush event (0, 5)
of prog5 satisfies the flush-point characterization. -/
theorem checkpoint_flush_points_witness :
    (0 : Nat) ≤ 5 ∧ 5 ≤ max 0 31 ∧ (31 ≤ 5 ∨ 5 = prog5.length) ∧ 5 ≤ prog5.length :=
  checkpoint_flush_points (MachineOperand.V 100) 0 200 prog5 (0, 5) (by decide)

theorem spill_rewrite_one_stack (n : MachineOperand) (f : MachineFunc) :
    (spill_rewrite_one n f).stack_size = f.stack_size + 4 := rfl

theorem spillStep_fold (sp : List MachineOperand) (f : MachineFunc) (acc : List Nat) :
    (sp.foldl spillStep (f, acc)).1.stack_size = f.stack_size + 4 * sp.length
    ∧ (sp.foldl spillStep (f, acc)).2
        = acc ++ (List.range sp.length).map (fun i => f.stack_size + 4 * i) := by
  induction sp generalizing f acc with
  | nil => simp
  | cons n sp ih =>
      rw [List.foldl_cons]
      obtain ⟨h1, h2⟩ := ih (spill_rewrite_one n f) (acc ++ [f.stack_size])
      constructor
      · show (sp.foldl spillStep (spill_rewrite_one n f, acc ++ [f.stack_size])).1.stack_size = _
        rw [h1, spill_rewrite_one_stack]
        simp [Nat.mul_succ]
        omega
      · show (sp.foldl spillStep (spill_rewrite_one n f, acc ++ [f.stack_size])).2 = _
        rw [h2, spill_rewrite_one_stack]
        rw [List.append_assoc]
        congr 1
        have hm : List.map (fun i => f.stack_size + 4 + 4 * i) (List.range sp.length)
            = List.map ((fun i => f.stack_size + 4 * i) ∘ Nat.succ) (List.range sp.length) :=
          List.map_congr_left (fun i _ => by
            simp only [Function.comp_apply]
            omega)
        simp only [List.length_cons]
        rw [List.singleton_append, List.range_succ_eq_map, List.map_cons, List.map_map, hm]
        simp

/-- C7: one spill-rewriting round gives the i-th spilled operand the fresh
4-byte slot at offset stack_size + 4i — the offsets are pairwise distinct,
lie in the newly grown region, and are disjoint from any later round's
offsets — and grows the frame by exactly 4 bytes per spilled operand (12
bytes for 3 operands); the frame never shrinks. -/
theorem spill_rewrite_frame (sp : List MachineOperand) (f : MachineFunc) :
    (spill_rewrite sp f).1.stack_size = f.stack_size + 4 * sp.length
    ∧ (spill_rewrite sp f).2
        = (List.range sp.length).map (fun i => f.stack_size + 4 * i)
    ∧ (spill_rewrite sp f).2.Nodup
    ∧ (∀ o ∈ (spill_rewrite sp f).2,
        f.stack_size ≤ o ∧ o < (spill_rewrite sp f).1.stack_size)
    ∧ f.stack_size ≤ (spill_rewrite sp f).1.stack_size
    ∧ (∀ sp2 : List MachineOperand, ∀ o1 o2 : Nat, o1 ∈ (spill_rewrite sp f).2 →
        o2 ∈ (spill_rewrite sp2 (spill_rewrite sp f).1).2 → o1 < o2)
    ∧ (sp.length = 3 → (spill_rewrite sp f).1.stack_size = f.stack_size + 12) := by
  obtain ⟨h1, h2⟩ := spillStep_fold sp f []
  rw [List.nil_append] at h2
  have hstack : (spill_rewrite sp f).1.stack_size = f.stack_size + 4 * sp.length := h1
  have hoffs : (spill_rewrite sp f).2
      = (List.range sp.length).map (fun i => f.stack_size + 4 * i) := h2
  have hmem : ∀ o ∈ (spill_rewrite sp f).2, ∃ i, i < sp.length ∧ o = f.stack_size + 4 * i := by
    intro o ho
    rw [hoffs] at ho
    simp only [List.mem_map, List.mem_range] at ho
    obtain ⟨i, hi, rfl⟩ := ho
    exact ⟨i, hi, rfl⟩
  refine ⟨hstack, hoffs, ?_, ?_, by omega, ?_, fun h3 => by rw [hstack, h3]⟩
  · rw [hoffs]
    exact (List.nodup_range _).map (fun a b hab => by omega)
  · intro o ho
    obtain ⟨i, hi, rfl⟩ := hmem o ho
    rw [hstack]
    omega
  · intro sp2 o1 o2 h1m h2m
    obtain ⟨i, hi, rfl⟩ := hmem o1 h1m
    obtain ⟨h1b, h2b⟩ := spillStep_fold sp2 (spill_rewrite sp f).1 []
    rw [List.nil_append] at h2b
    rw [show spill_rewrite sp2 (spill_rewrite sp f).1
          = sp2.foldl spillStep ((spill_rewrite sp f).1, []) from rfl, h2b] at h2m
    simp only [List.mem_map, List.mem_range] at h2m
    obtain ⟨j, hj, rfl⟩ := h2m
    rw [hstack]
    omega

/-!  Translation of the linear-scan round (lines 192-418).  The C++ code
addresses operand slots through pointers; the embedding addresses them
through paths (block index, instruction index, slot role), and the
std::map/std::set containers become association lists and Finsets. -/

/-- A slot path: block index, instruction index, slot role. -/
abbrev SlotPath := Nat × Nat × SlotRole

/-- The instruction lists of a function, block by block. -/
abbrev Prog := List (List MInst)

/-- First-match lookup in an association list (std::map::find). -/
def lookupA {κ ν : Type} [DecidableEq κ] : List (κ × ν) → κ → Option ν
  | [], _ => none
  | e :: l, k => if e.1 = k then some e.2 else lookupA l k

/-- Insert-or-assign (std::map::operator[] followed by assignment). -/
def setA {κ ν : Type} [DecidableEq κ] : List (κ × ν) → κ → ν → List (κ × ν)
  | [], k, v => [(k, v)]
  | e :: l, k, v => if e.1 = k then (k, v) :: l else e :: setA l k v

/-- Insert-if-absent (std::map::insert, which keeps an existing entry). -/
def insertA {κ ν : Type} [DecidableEq κ] (l : List (κ × ν)) (k : κ) (v : ν) :
    List (κ × ν) :=
  match lookupA l k with
  | some _ => l
  | none => l ++ [(k, v)]

/-- Erase by key (std::map::erase). -/
def eraseA {κ ν : Type} [DecidableEq κ] : List (κ × ν) → κ → List (κ × ν)
  | [], _ => []
  | e :: l, k => if e.1 = k then l else e :: eraseA l k

/-- The inverse_ptr insertion (lines 239-248): push the slot onto the
operand's list, creating the entry on first sight. -/
def pushInv {κ ν : Type} [DecidableEq κ] : List (κ × List ν) → κ → ν → List (κ × List ν)
  | [], k, v => [(k, [v])]
  | e :: l, k, v => if e.1 = k then (e.1, e.2 ++ [v]) :: l else e :: pushInv l k v

/-- Reading one instruction of the program. -/
def getInst (p : Prog) (b i : Nat) : Option MInst := (p.getD b []).get? i

/-- Reading one operand slot of the program. -/
def getSlot (p : Prog) (pa : SlotPath) : Option MachineOperand :=
  match getInst p pa.1 pa.2.1 with
  | some inst => getSlotInst inst pa.2.2
  | none => none

/-- Writing one operand slot of the program in place. -/
def setSlot (p : Prog) (pa : SlotPath) (op : MachineOperand) : Prog :=
  match getInst p pa.1 pa.2.1 with
  | some inst => p.set pa.1 ((p.getD pa.1 []).set pa.2.1 (setSlotInst inst pa.2.2 op))
  | none => p

/-- The instruction lists of a function. -/
def progOf (g : MachineFunc) : Prog := g.bb.map (fun b => b.insts)

/-- The two successor indices of a block. -/
def succsOf (g : MachineFunc) (b : Nat) : Option Nat × Option Nat :=
  ((g.bb.getD b default).succ0, (g.bb.getD b default).succ1)

/-- Translation of the CFG linearization loop (lines 194-210): an explicit
stack (its head is the C++ vector's back), a visited set, and the dfs
output list; successors are pushed in the order succ[1], succ[0], so
succ[0] is popped first.  The fuel covers the loop's at most one pop per
visited block. -/
def dfs_loop (g : MachineFunc) : Nat → List Nat → Finset Nat → List Nat → List Nat
  | 0, _, _, dfsl => dfsl
  | _ + 1, [], _, dfsl => dfsl
  | fuel + 1, t :: st, vis, dfsl =>
      let s1 := (succsOf g t).2
      let s0 := (succsOf g t).1
      let p1 : List Nat × Finset Nat :=
        match s1 with
        | some b => if b ∈ vis then (st, vis) else (b :: st, insert b vis)
        | none => (st, vis)
      let p0 : List Nat × Finset Nat :=
        match s0 with
        | some b => if b ∈ p1.2 then p1 else (b :: p1.1, insert b p1.2)
        | none => p1
      dfs_loop g fuel p0.1 p0.2 (dfsl ++ [t])

/-- The DFS order of the blocks, from the entry block at index 0. -/
def dfs_order (g : MachineFunc) : List Nat :=
  dfs_loop g (g.bb.length + 1) [0] {0} []

/-- Translation of the instruction numbering (lines 212-222): instructions
get ids 1, 2, ... in dfs block order. -/
def inst_ids (g : MachineFunc) (dfsl : List Nat) : List ((Nat × Nat) × Nat) :=
  (dfsl.foldl
    (fun (acc : List ((Nat × Nat) × Nat) × Nat) b =>
      let insts := (g.bb.getD b default).insts
      (acc.1 ++ insts.enum.map (fun p => ((b, p.1), acc.2 + p.1 + 1)),
       acc.2 + insts.length))
    ([], 0)).1

/-- The id of one instruction under the numbering (0 when unnumbered; the
source's map lookups only ever hit numbered instructions). -/
def instIdOf (ids : List ((Nat × Nat) × Nat)) (b i : Nat) : Nat :=
  (lookupA ids (b, i)).getD 0

/-- The interval-construction state: per-def-slot start and end maps, the
discovery-ordered slot list, and the operand-to-def-slots index. -/
structure IntervalData where
  o2start : List (SlotPath × Nat)
  o2end : List (SlotPath × Nat)
  start_list : List SlotPath
  inv : List (MachineOperand × List SlotPath)

/-- Translation of the def-collection loop (lines 231-251): every def slot
gets the singleton interval at its instruction id, enters start_list, and
is indexed under its operand value in inverse_ptr. -/
def build_defs_step (ids : List ((Nat × Nat) × Nat)) (b : Nat) (d : IntervalData)
    (p : Nat × MInst) : IntervalData :=
  match (get_def_use_ptr p.2).1 with
  | some r =>
      match getSlotInst p.2 r with
      | some op =>
          ⟨insertA d.o2start (b, p.1, r) (instIdOf ids b p.1),
           insertA d.o2end (b, p.1, r) (instIdOf ids b p.1),
           d.start_list ++ [(b, p.1, r)], pushInv d.inv op (b, p.1, r)⟩
      | none => d
  | none => d

/-- The def-collection fold over one block's instructions. -/
def build_defs_block (g : MachineFunc) (ids : List ((Nat × Nat) × Nat))
    (d : IntervalData) (b : Nat) : IntervalData :=
  (g.bb.getD b default).insts.enum.foldl (build_defs_step ids b) d

/-- The def-collection fold over the dfs blocks. -/
def build_defs (g : MachineFunc) (dfsl : List Nat) (ids : List ((Nat × Nat) × Nat)) :
    IntervalData :=
  dfsl.foldl (build_defs_block g ids) ⟨[], [], [], []⟩

/-- One def-slot extension (lines 261-266): raise the recorded end and
lower the recorded start to the current instruction id. -/
def extStepPath (idn : Nat) (maps : List (SlotPath × Nat) × List (SlotPath × Nat))
    (pa : SlotPath) : List (SlotPath × Nat) × List (SlotPath × Nat) :=
  let e2 := match lookupA maps.2 pa with
    | some e => if e < idn then setA maps.2 pa idn else maps.2
    | none => maps.2
  let s2 := match lookupA maps.1 pa with
    | some s => if idn < s then setA maps.1 pa idn else maps.1
    | none => maps.1
  (s2, e2)

/-- Extension for one live operand: all of its def slots (lines 257-269). -/
def extStepMaps (inv : List (MachineOperand × List SlotPath)) (idn : Nat)
    (maps : List (SlotPath × Nat) × List (SlotPath × Nat)) (lv : MachineOperand) :
    List (SlotPath × Nat) × List (SlotPath × Nat) :=
  match lookupA inv lv with
  | some v => v.foldl (extStepPath idn) maps
  | none => maps

/-- One instruction of the backward extension walk (lines 256-279): extend
for every currently live operand, then erase the def and insert the uses
into the working set. -/
def ext_inst (inv : List (MachineOperand × List SlotPath)) (idn : Nat) (inst : MInst)
    (st : (List (SlotPath × Nat) × List (SlotPath × Nat)) × List MachineOperand) :
    (List (SlotPath × Nat) × List (SlotPath × Nat)) × List MachineOperand :=
  let maps := st.2.foldl (extStepMaps inv idn) st.1
  let live1 := match (get_def_use_ptr inst).1 with
    | some r =>
        match getSlotInst inst r with
        | some op => st.2.filter (fun x => ¬ x = op)
        | none => st.2
    | none => st.2
  let live2 := (get_def_use_ptr inst).2.foldl
    (fun (lv : List MachineOperand) r =>
      match getSlotInst inst r with
      | some op => if op ∈ lv then lv else lv ++ [op]
      | none => lv)
    live1
  (maps, live2)

/-- Numeric key of an operand state, giving the total order std::set uses
to iterate MachineOperand sets (any total order gives the same extension
result, since updates to distinct operands touch disjoint def slots). -/
def opKey : OpState → Nat
  | OpState.Virtual => 0
  | OpState.PreColored => 1
  | OpState.Allocated => 2
  | OpState.Immediate => 3

/-- Lexicographic order on operands: state kind, then value. -/
def opLe (a b : MachineOperand) : Prop :=
  opKey a.state < opKey b.state ∨ (opKey a.state = opKey b.state ∧ a.value ≤ b.value)

instance : DecidableRel opLe := fun a b => by
  unfold opLe
  infer_instance

theorem opKey_inj (a b : OpState) (h : opKey a = opKey b) : a = b := by
  cases a <;> cases b <;> simp [opKey] at h ⊢

instance : IsTrans MachineOperand opLe := ⟨by
  intro a b c hab hbc
  unfold opLe at hab hbc ⊢
  rcases hab with h | ⟨h1, h2⟩ <;> rcases hbc with h3 | ⟨h3, h4⟩
  · exact Or.inl (h.trans h3)
  · exact Or.inl (h3 ▸ h)
  · exact Or.inl (h1 ▸ h3)
  · exact Or.inr ⟨h1.trans h3, h2.trans h4⟩⟩

instance : IsAntisymm MachineOperand opLe := ⟨by
  intro a b hab hba
  unfold opLe at hab hba
  rcases hab with h | ⟨h1, h2⟩ <;> rcases hba with h3 | ⟨h3, h4⟩ <;> try omega
  cases a
  cases b
  simp only at h1 h2 h3 h4 ⊢
  exact congrArg₂ MachineOperand.mk (opKey_inj _ _ h1) (le_antisymm h2 h4)⟩

instance : IsTotal MachineOperand opLe := ⟨by
  intro a b
  unfold opLe
  omega⟩

/-- A kernel-reducible sorted list of a finite operand set (insertion sort
lifted over the underlying multiset; the sorted list of a multiset is
unique, so the lift is well defined). -/
def sortedListOf (s : Finset MachineOperand) : List MachineOperand :=
  Quot.liftOn s.1 (fun l => l.insertionSort opLe)
    (fun l1 l2 h =>
      List.eq_of_perm_of_sorted
        ((List.perm_insertionSort opLe l1).trans
          (h.trans (List.perm_insertionSort opLe l2).symm))
        (List.sorted_insertionSort opLe l1)
        (List.sorted_insertionSort opLe l2))

/-- The ordered list of a block's liveout set, as std::set iteration order. -/
def liveoutList (b : MachineBB) : List MachineOperand := sortedListOf b.liveout

/-- The backward extension walk over one block, seeded from its liveout. -/
def extend_block (g : MachineFunc) (ids : List ((Nat × Nat) × Nat))
    (inv : List (MachineOperand × List SlotPath)) (b : Nat)
    (maps : List (SlotPath × Nat) × List (SlotPath × Nat)) :
    List (SlotPath × Nat) × List (SlotPath × Nat) :=
  (((g.bb.getD b default).insts.enum.reverse).foldl
    (fun st p => ext_inst inv (instIdOf ids b p.1) p.2 st)
    (maps, liveoutList (g.bb.getD b default))).1

/-- The extension loop over all dfs blocks (lines 253-280). -/
def extend_intervals (g : MachineFunc) (ids : List ((Nat × Nat) × Nat))
    (inv : List (MachineOperand × List SlotPath)) (dfsl : List Nat)
    (maps : List (SlotPath × Nat) × List (SlotPath × Nat)) :
    List (SlotPath × Nat) × List (SlotPath × Nat) :=
  dfsl.foldl (fun m b => extend_block g ids inv b m) maps

/-- Reading the used array (int used[13]). -/
def usedGet (l : List Bool) (k : Nat) : Bool := l.getD k false

/-- Marking one operand in the used array (lines 293-304): only Allocated
or PreColored operands with 0 ≤ value < 13 set their bit. -/
def markOp (used : List Bool) (op : MachineOperand) : List Bool :=
  if op.state = OpState.Allocated ∨ op.state = OpState.PreColored then
    if 0 ≤ op.value ∧ op.value < 13 then used.set op.value.toNat true else used
  else used

/-- Pre-marking for one slot role: mark the operand read through the role,
if the role is valid. -/
def premark_role (inst : MInst) (used : List Bool) (r : SlotRole) : List Bool :=
  match getSlotInst inst r with
  | some op => markOp used op
  | none => used

/-- Pre-marking for the def slot of one instruction, if any. -/
def premark_def (inst : MInst) (used : List Bool) : List Bool :=
  match (get_def_use_ptr inst).1 with
  | some r => premark_role inst used r
  | none => used

/-- Pre-marking for one instruction: the def slot, then the use slots. -/
def premark_inst (used : List Bool) (inst : MInst) : List Bool :=
  (get_def_use_ptr inst).2.foldl (premark_role inst) (premark_def inst used)

/-- Translation of the pre-marking loop (lines 284-306): a zeroed used
array, then every dfs block's instructions mark their Allocated and
PreColored operands. -/
def premark_used (g : MachineFunc) (dfsl : List Nat) : List Bool :=
  dfsl.foldl
    (fun used b => (g.bb.getD b default).insts.foldl premark_inst used)
    (List.replicate 13 false)

/-- Translation of the free-register search (lines 341-346): the first k in
4..12 with used[k] == 0. -/
def findFreeReg (used : List Bool) : Option Nat :=
  ((List.range 13).drop 4).find? (fun k => !usedGet used k)

/-- The sort key of a slot: its recorded interval start. -/
def keyStart (o2s : List (SlotPath × Nat)) (pa : SlotPath) : Nat := (lookupA o2s pa).getD 0

/-- The active-list key of a slot: its recorded interval end. -/
def keyEnd (o2e : List (SlotPath × Nat)) (pa : SlotPath) : Nat := (lookupA o2e pa).getD 0

/-- One inner pass of the start_list bubble sort (lines 312-319): j runs
from 0 to i-1, swapping adjacent entries whose starts are out of order. -/
def bubble_pass (key : SlotPath → Nat) (i : Nat) (l : List SlotPath) : List SlotPath :=
  (List.range i).foldl
    (fun l j =>
      let a := l.getD j default
      let b := l.getD (j + 1) default
      if key b < key a then (l.set (j + 1) a).set j b else l)
    l

/-- The start_list bubble sort (lines 311-320): i runs from size-1 down
to 1. -/
def bubble_sort (key : SlotPath → Nat) (l : List SlotPath) : List SlotPath :=
  (((List.range (l.length - 1)).map (fun i => i + 1)).reverse).foldl
    (fun l i => bubble_pass key i l) l

/-- The single re-sorting pass over active after an insertion or a back
replacement (lines 357-363 and 378-384): k runs from size-1 down to 1,
swapping (k-1, k) when out of order by interval end. -/
def active_bubble (key : SlotPath → Nat) (l : List SlotPath) : List SlotPath :=
  (((List.range (l.length - 1)).map (fun k => k + 1)).reverse).foldl
    (fun l k =>
      let a := l.getD k default
      let b := l.getD (k - 1) default
      if key a < key b then (l.set k b).set (k - 1) a else l)
    l

/-- The state of the linear scan (lines 284-309): the program with slots
rewritten in place, the used array, the active list, the alloc map from
colored slots to their original virtual values, the allocated map from
operand values to assigned registers, and the spilled set. -/
structure ScanState where
  cur : Prog
  used : List Bool
  active : List SlotPath
  alloc : List (SlotPath × Int)
  allocd : List (MachineOperand × Int)
  spilled : Finset MachineOperand

/-- Translation of the expire loop (lines 326-336): walk active in end
order, freeing registers of intervals that end before the incoming start,
stopping at the first interval that does not. -/
def expireOld (o2e : List (SlotPath × Nat)) (startv : Nat) (cur : Prog) :
    List Bool → List SlotPath → List Bool × List SlotPath
  | used, [] => (used, [])
  | used, a :: rest =>
      if startv ≤ keyEnd o2e a then (used, a :: rest)
      else
        expireOld o2e startv cur
          (match getSlot cur a with
           | some op => used.set op.value.toNat false
           | none => used)
          rest

/-- Translation of the coloring epilogue (lines 391-395): remember the
slot's original value in alloc, then set the slot to Allocated(id). -/
def colorDef (st : ScanState) (pa : SlotPath) (id : Int) : ScanState :=
  match getSlot st.cur pa with
  | some op =>
      { st with
          alloc := insertA st.alloc pa op.value,
          cur := setSlot st.cur pa ⟨OpState.Allocated, id⟩ }
  | none => st

/-- Translation of one scan iteration (lines 322-397): skip non-Virtual
slots; expire; reuse a previous assignment of the same operand value if the
allocated map has one; otherwise take a free register, or spill/evict
against the active interval with the largest end.  The source indexes
active.back in the evict branch, which is undefined when active is empty
(possible only if the pool was exhausted by pre-marked registers alone);
that corner is modelled as spilling the operand. -/
def scanStep (o2s o2e : List (SlotPath × Nat)) (st : ScanState) (pa : SlotPath) : ScanState :=
  match getSlot st.cur pa with
  | some op =>
      if op.state = OpState.Virtual then
        let ua := expireOld o2e (keyStart o2s pa) st.cur st.used st.active
        let st1 : ScanState := { st with used := ua.1, active := ua.2 }
        match lookupA st1.allocd op with
        | some id => colorDef st1 pa id
        | none =>
            match findFreeReg st1.used with
            | some k =>
                let st2 : ScanState := { st1 with
                    allocd := setA st1.allocd op (k : Int),
                    used := st1.used.set k true,
                    active := active_bubble (keyEnd o2e) (st1.active ++ [pa]) }
                colorDef st2 pa (k : Int)
            | none =>
                match st1.active.getLast? with
                | none => { st1 with spilled := insert op st1.spilled }
                | some sp =>
                    if keyEnd o2e sp < keyEnd o2e pa then
                      { st1 with spilled := insert op st1.spilled }
                    else
                      let active2 := active_bubble (keyEnd o2e)
                        (st1.active.set (st1.active.length - 1) pa)
                      let id := match getSlot st1.cur sp with
                        | some spop => spop.value
                        | none => 0
                      let orig := (lookupA st1.alloc sp).getD 0
                      let st2 : ScanState := { st1 with
                          active := active2,
                          allocd := eraseA (setA st1.allocd op id)
                            ⟨OpState.Virtual, orig⟩,
                          alloc := eraseA st1.alloc sp,
                          cur := setSlot st1.cur sp ⟨OpState.Virtual, orig⟩,
                          spilled := insert ⟨OpState.Virtual, orig⟩ st1.spilled }
                      colorDef st2 pa id
      else st
  | none => st

/-- The scan over the sorted start list (lines 322-397). -/
def linear_scan (o2s o2e : List (SlotPath × Nat)) (sorted : List SlotPath) (prog : Prog)
    (used0 : List Bool) : ScanState :=
  sorted.foldl (scanStep o2s o2e) ⟨prog, used0, [], [], [], ∅⟩

/-- Translation of one use rewrite of the second sweep (lines 403-416):
Virtual uses take their operand's assigned register from the allocated map
or join the spilled set. -/
def sweepUse (st : ScanState) (pa : SlotPath) : ScanState :=
  match getSlot st.cur pa with
  | some op =>
      if op.state = OpState.Virtual then
        match lookupA st.allocd op with
        | none => { st with spilled := insert op st.spilled }
        | some id => colorDef st pa id
      else st
  | none => st

/-- One instruction of the second sweep. -/
def sweep_inst (b i : Nat) (st : ScanState) : ScanState :=
  match (st.cur.getD b []).get? i with
  | some inst =>
      (get_def_use_ptr inst).2.foldl (fun st r => sweepUse st (b, i, r)) st
  | none => st

/-- The use sweep over one block. -/
def sweep_block (st : ScanState) (b : Nat) : ScanState :=
  (List.range (st.cur.getD b []).length).foldl (fun st i => sweep_inst b i st) st

/-- The second sweep over all dfs blocks (lines 399-418). -/
def use_sweep (dfsl : List Nat) (st : ScanState) : ScanState :=
  dfsl.foldl sweep_block st

/-- All stages of one linear-scan round on a function whose liveness sets
are already installed (the body of the while loop, lines 192-418). -/
structure RoundOut where
  dfsl : List Nat
  ids : List ((Nat × Nat) × Nat)
  o2start : List (SlotPath × Nat)
  o2end : List (SlotPath × Nat)
  start_list : List SlotPath
  inv : List (MachineOperand × List SlotPath)
  used0 : List Bool
  sorted : List SlotPath
  scan : ScanState
  final : ScanState

/-- One full round: linearize, number, build and extend intervals,
pre-mark, sort, scan, then sweep the uses. -/
def round_core (g : MachineFunc) : RoundOut :=
  let dfsl := dfs_order g
  let ids := inst_ids g dfsl
  let bd := build_defs g dfsl ids
  let maps := extend_intervals g ids bd.inv dfsl (bd.o2start, bd.o2end)
  let used0 := premark_used g dfsl
  let sorted := bubble_sort (keyStart maps.1) bd.start_list
  let scan := linear_scan maps.1 maps.2 sorted (progOf g) used0
  let final := use_sweep dfsl scan
  ⟨dfsl, ids, maps.1, maps.2, bd.start_list, bd.inv, used0, sorted, scan, final⟩

/-- Liveness analysis followed by one linear-scan round. -/
def allocate_round (f : MachineFunc) : Option RoundOut :=
  (liveness_analysis f).map round_core

/-- A single-block function: def v (V 100) at instruction 1, use of v at 2,
def w (V 101) at 3, a dead second def of v at 4, use of w at 5. -/
def fC1 : MachineFunc :=
  ⟨[⟨[MInst.move (MachineOperand.V 100) (MachineOperand.I 0),
      MInst.compare (MachineOperand.V 100) (MachineOperand.V 100),
      MInst.move (MachineOperand.V 101) (MachineOperand.I 0),
      MInst.move (MachineOperand.V 100) (MachineOperand.I 1),
      MInst.compare (MachineOperand.V 101) (MachineOperand.V 101)],
     none, none, ∅, ∅, ∅, ∅⟩], 0, 200⟩

/-- The round run on fC1. -/
def rC1 : RoundOut := (allocate_round fC1).getD (round_core fC1)

/-- C1 evaluated at the failing input fC1: the round ends with no spills,
yet the second def slot of v (computed interval [1,4]) and the def slot of
w (computed interval [3,4]) — overlapping intervals — both hold physical
register 4.  The reuse path of the allocated map (lines 386-390, believed
dead by the code's own comments) hands v's earlier register to its second
def after that register was expired and reassigned to w, clobbering w
before its use at instruction 5. -/
theorem no_interference_failing_input :
    (allocate_round fC1).isSome = true
    ∧ rC1.final.spilled = ∅
    ∧ getSlot (progOf fC1) (0, 3, SlotRole.dstR) = some (MachineOperand.V 100)
    ∧ getSlot (progOf fC1) (0, 2, SlotRole.dstR) = some (MachineOperand.V 101)
    ∧ getSlot rC1.final.cur (0, 3, SlotRole.dstR) = some ⟨OpState.Allocated, 4⟩
    ∧ getSlot rC1.final.cur (0, 2, SlotRole.dstR) = some ⟨OpState.Allocated, 4⟩
    ∧ keyStart rC1.o2start (0, 3, SlotRole.dstR) ≤ keyEnd rC1.o2end (0, 2, SlotRole.dstR)
    ∧ keyStart rC1.o2start (0, 2, SlotRole.dstR) ≤ keyEnd rC1.o2end (0, 3, SlotRole.dstR) := by
  refine ⟨by decide, by decide, by decide, by decide, by decide, by decide, by decide, by decide⟩

/-- A single-block function defining nine virtual registers that all stay
live until their uses: nine pairwise-overlapping intervals. -/
def fC2 : MachineFunc :=
  ⟨[⟨(List.range 9).map (fun k => MInst.move (MachineOperand.V (100 + k)) (MachineOperand.I 0))
      ++ (List.range 9).map (fun k =>
            MInst.compare (MachineOperand.V (100 + k)) (MachineOperand.V (100 + k))),
     none, none, ∅, ∅, ∅, ∅⟩], 0, 200⟩

/-- The round run on fC2. -/
def rC2 : RoundOut := (allocate_round fC2).getD (round_core fC2)

/-- Counterexample to C2 as stated: the pool has nine registers (ids 4-12),
not eight.  Nine pairwise-overlapping operands are all given distinct
physical registers 4..12 with no spill — with an 8-register pool at least
one would spill — and with registers 4..11 all in use the search still
finds register 12 instead of taking the spill branch. -/
theorem pool_size_counterexample :
    (allocate_round fC2).isSome = true
    ∧ rC2.final.spilled = ∅
    ∧ ((List.range 9).map (fun k => getSlot rC2.final.cur (0, k, SlotRole.dstR)))
        = (List.range 9).map (fun k => some ⟨OpState.Allocated, ((4 + k : Nat) : Int)⟩)
    ∧ ((List.range 9).all (fun a => (List.range 9).all (fun b =>
         decide (keyStart rC2.o2start (0, a, SlotRole.dstR)
           ≤ keyEnd rC2.o2end (0, b, SlotRole.dstR))))) = true
    ∧ findFreeReg ((List.range 13).map (fun k => decide (k ≤ 11))) = some 12
    ∧ ((List.range 13).drop 4).length = 9 := by
  refine ⟨by decide, by decide, by decide, by decide, by decide, by decide⟩

/-- A function whose entry block colors a virtual register and whose
unreachable second block holds a PreColored occurrence of register 4. -/
def fC10 : MachineFunc :=
  ⟨[⟨[MInst.move (MachineOperand.V 100) (MachineOperand.I 0),
      MInst.compare (MachineOperand.V 100) (MachineOperand.V 100)],
     none, none, ∅, ∅, ∅, ∅⟩,
    ⟨[MInst.move (MachineOperand.R 4) (MachineOperand.I 0)],
     none, none, ∅, ∅, ∅, ∅⟩], 0, 200⟩

/-- The round run on fC10. -/
def rC10 : RoundOut := (allocate_round fC10).getD (round_core fC10)

/-- Counterexample to C10 as stated: pre-marking only scans the DFS-visited
blocks, so the PreColored occurrence of register 4 in the unreachable
second block is not marked, and the virtual operand of the entry block is
handed register 4 anyway. -/
theorem premark_unreachable_counterexample :
    (allocate_round fC10).isSome = true
    ∧ rC10.dfsl = [0]
    ∧ getSlot (progOf fC10) (1, 0, SlotRole.dstR) = some (MachineOperand.R 4)
    ∧ (MachineOperand.R 4).state = OpState.PreColored
    ∧ usedGet rC10.used0 4 = false
    ∧ getSlot (progOf fC10) (0, 0, SlotRole.dstR) = some (MachineOperand.V 100)
    ∧ getSlot rC10.final.cur (0, 0, SlotRole.dstR) = some ⟨OpState.Allocated, 4⟩ := by
  refine ⟨by decide, by decide, by decide, by decide, by decide, by decide, by decide⟩

/-- C2 (amended): the register pool of the free-register search is the nine
ids 4..12 — r4 through r12, including the scratch register r12 — and the
spill/evict branch (search result none) is taken exactly when all nine are
marked in use; a found register is always one of the nine and unmarked. -/
theorem findFreeReg_pool (used : List Bool) :
    (findFreeReg used = none ↔ ∀ k, 4 ≤ k → k < 13 → usedGet used k = true)
    ∧ (∀ r, findFreeReg used = some r → 4 ≤ r ∧ r < 13 ∧ usedGet used r = false)
    ∧ ((List.range 13).drop 4).length = 9 := by
  have hlist : ((List.range 13).drop 4) = [4, 5, 6, 7, 8, 9, 10, 11, 12] := rfl
  refine ⟨?_, ?_, rfl⟩
  · unfold findFreeReg
    rw [hlist, List.find?_eq_none]
    constructor
    · intro h k h4 h13
      have hk : k ∈ [4, 5, 6, 7, 8, 9, 10, 11, 12] := by interval_cases k <;> simp
      have := h k hk
      simpa using this
    · intro h x hx
      have hb : 4 ≤ x ∧ x < 13 := by
        simp only [List.mem_cons, List.not_mem_nil, or_false] at hx
        omega
      simp [h x hb.1 hb.2]
  · intro r hr
    unfold findFreeReg at hr
    rw [hlist] at hr
    have h1 := List.find?_some hr
    have h2 := List.mem_of_find?_eq_some hr
    have hb : 4 ≤ r ∧ r < 13 := by
      simp only [List.mem_cons, List.not_mem_nil, or_false] at h2
      omega
    refine ⟨hb.1, hb.2, by simpa using h1⟩

/-- A single-block function with two defs of the same virtual register
(indices 1 and 2 in instruction ids) and a use at id 3. -/
def fC3 : MachineFunc :=
  ⟨[⟨[MInst.move (MachineOperand.V 100) (MachineOperand.I 0),
      MInst.move (MachineOperand.V 100) (MachineOperand.I 1),
      MInst.compare (MachineOperand.V 100) (MachineOperand.V 100)],
     none, none, ∅, ∅, ∅, ∅⟩], 0, 200⟩

/-- The round run on fC3. -/
def rC3 : RoundOut := (allocate_round fC3).getD (round_core fC3)

/-- Counterexample to C3 as stated: the interval builder keys intervals by
def slot, not by operand identity, and records per-slot intervals that can
exclude use occurrences.  In fC3 the operand V 100 gets two interval
entries — [1,2] for its first def slot and [2,2] for its second — and its
use occurrence at instruction id 3 lies outside both recorded intervals. -/
theorem interval_per_operand_counterexample :
    (allocate_round fC3).isSome = true
    ∧ rC3.start_list = [(0, 0, SlotRole.dstR), (0, 1, SlotRole.dstR)]
    ∧ getSlot (progOf fC3) (0, 0, SlotRole.dstR) = some (MachineOperand.V 100)
    ∧ getSlot (progOf fC3) (0, 1, SlotRole.dstR) = some (MachineOperand.V 100)
    ∧ getSlot (progOf fC3) (0, 2, SlotRole.lhsR) = some (MachineOperand.V 100)
    ∧ instIdOf rC3.ids 0 2 = 3
    ∧ keyStart rC3.o2start (0, 0, SlotRole.dstR) = 1
    ∧ keyEnd rC3.o2end (0, 0, SlotRole.dstR) = 2
    ∧ keyStart rC3.o2start (0, 1, SlotRole.dstR) = 2
    ∧ keyEnd rC3.o2end (0, 1, SlotRole.dstR) = 2 := by
  refine ⟨by decide, by decide, by decide, by decide, by decide,
          by decide, by decide, by decide, by decide, by decide⟩

/-!  Association-list lemmas and a generic fold-invariant helper. -/

theorem foldl_pres {α β : Type} (f : α → β → α) (P : α → Prop)
    (h : ∀ a b, P a → P (f a b)) : ∀ (l : List β) (a : α), P a → P (l.foldl f a) := by
  intro l
  induction l with
  | nil => exact fun a ha => ha
  | cons b l ih => exact fun a ha => ih (f a b) (h a b ha)

theorem lookupA_setA_self {κ ν : Type} [DecidableEq κ] (l : List (κ × ν)) (k : κ) (v : ν) :
    lookupA (setA l k v) k = some v := by
  induction l with
  | nil => simp [setA, lookupA]
  | cons e l ih =>
      by_cases he : e.1 = k
      · simp [setA, he, lookupA]
      · simp [setA, he, lookupA, ih]

theorem lookupA_setA_ne {κ ν : Type} [DecidableEq κ] (l : List (κ × ν)) (k k2 : κ) (v : ν)
    (h : k ≠ k2) : lookupA (setA l k v) k2 = lookupA l k2 := by
  induction l with
  | nil => simp [setA, lookupA, h]
  | cons e l ih =>
      by_cases he : e.1 = k
      · simp [setA, he, lookupA, h, he ▸ h]
      · simp only [setA, he, if_false, ite_false, lookupA]
        by_cases he2 : e.1 = k2
        · simp [he2]
        · simp [he2, ih]

/-- The two interval maps of build_defs stay equal: both are built with the
same insertions. -/
theorem build_defs_start_eq_end (g : MachineFunc) (dfsl : List Nat)
    (ids : List ((Nat × Nat) × Nat)) :
    (build_defs g dfsl ids).o2start = (build_defs g dfsl ids).o2end := by
  unfold build_defs
  refine foldl_pres (build_defs_block g ids) (fun d => d.o2start = d.o2end) ?_ dfsl
    ⟨[], [], [], []⟩ rfl
  intro d b hd
  unfold build_defs_block
  refine foldl_pres (build_defs_step ids b) (fun d => d.o2start = d.o2end) ?_ _ d hd
  intro d2 p hd2
  unfold build_defs_step
  rcases hdu : (get_def_use_ptr p.2).1 with _ | r <;> simp only [hdu]
  · exact hd2
  · rcases hop : getSlotInst p.2 r with _ | op <;> simp only [hop]
    · exact hd2
    · simp only [hd2]

theorem extStepPath_fst_none (idn : Nat)
    (maps : List (SlotPath × Nat) × List (SlotPath × Nat)) (pb : SlotPath)
    (hl : lookupA maps.1 pb = none) : (extStepPath idn maps pb).1 = maps.1 := by
  unfold extStepPath
  dsimp only
  rw [hl]

theorem extStepPath_fst_some (idn : Nat)
    (maps : List (SlotPath × Nat) × List (SlotPath × Nat)) (pb : SlotPath) (s0 : Nat)
    (hl : lookupA maps.1 pb = some s0) :
    (extStepPath idn maps pb).1 = if idn < s0 then setA maps.1 pb idn else maps.1 := by
  unfold extStepPath
  dsimp only
  rw [hl]

theorem extStepPath_snd_none (idn : Nat)
    (maps : List (SlotPath × Nat) × List (SlotPath × Nat)) (pb : SlotPath)
    (hl : lookupA maps.2 pb = none) : (extStepPath idn maps pb).2 = maps.2 := by
  unfold extStepPath
  dsimp only
  rw [hl]

theorem extStepPath_snd_some (idn : Nat)
    (maps : List (SlotPath × Nat) × List (SlotPath × Nat)) (pb : SlotPath) (e0 : Nat)
    (hl : lookupA maps.2 pb = some e0) :
    (extStepPath idn maps pb).2 = if e0 < idn then setA maps.2 pb idn else maps.2 := by
  unfold extStepPath
  dsimp only
  rw [hl]

/-- The bracket invariant of the extension phase: an entry that started at
value v keeps a start at most v and an end at least v. -/
def BracketInv (bd : IntervalData) (maps : List (SlotPath × Nat) × List (SlotPath × Nat)) :
    Prop :=
  ∀ pa v, lookupA bd.o2start pa = some v →
    ∃ s e, lookupA maps.1 pa = some s ∧ lookupA maps.2 pa = some e ∧ s ≤ v ∧ v ≤ e

theorem bracket_extStepPath (bd : IntervalData) (idn : Nat)
    (maps : List (SlotPath × Nat) × List (SlotPath × Nat)) (pb : SlotPath)
    (h : BracketInv bd maps) : BracketInv bd (extStepPath idn maps pb) := by
  intro pa v hv
  obtain ⟨s, e, hs, he, hsv, hve⟩ := h pa v hv
  have h1 : ∃ s2, lookupA (extStepPath idn maps pb).1 pa = some s2 ∧ s2 ≤ s := by
    rcases hl : lookupA maps.1 pb with _ | s0
    · rw [extStepPath_fst_none idn maps pb hl]
      exact ⟨s, hs, le_refl s⟩
    · rw [extStepPath_fst_some idn maps pb s0 hl]
      by_cases hlt : idn < s0
      · rw [if_pos hlt]
        by_cases hpb : pb = pa
        · subst hpb
          rw [hl] at hs
          injection hs with hs0
          subst hs0
          exact ⟨idn, lookupA_setA_self _ _ _, le_of_lt hlt⟩
        · refine ⟨s, ?_, le_refl s⟩
          rw [lookupA_setA_ne _ _ _ _ hpb]
          exact hs
      · rw [if_neg hlt]
        exact ⟨s, hs, le_refl s⟩
  have h2 : ∃ e2, lookupA (extStepPath idn maps pb).2 pa = some e2 ∧ e ≤ e2 := by
    rcases hl : lookupA maps.2 pb with _ | e0
    · rw [extStepPath_snd_none idn maps pb hl]
      exact ⟨e, he, le_refl e⟩
    · rw [extStepPath_snd_some idn maps pb e0 hl]
      by_cases hlt : e0 < idn
      · rw [if_pos hlt]
        by_cases hpb : pb = pa
        · subst hpb
          rw [hl] at he
          injection he with he0
          subst he0
          exact ⟨idn, lookupA_setA_self _ _ _, le_of_lt hlt⟩
        · refine ⟨e, ?_, le_refl e⟩
          rw [lookupA_setA_ne _ _ _ _ hpb]
          exact he
      · rw [if_neg hlt]
        exact ⟨e, he, le_refl e⟩
  obtain ⟨s2, hs2, hs2le⟩ := h1
  obtain ⟨e2, he2, he2ge⟩ := h2
  exact ⟨s2, e2, hs2, he2, le_trans hs2le hsv, le_trans hve he2ge⟩

theorem bracket_ext_inst (bd : IntervalData) (inv : List (MachineOperand × List SlotPath))
    (idn : Nat) (inst : MInst)
    (st : (List (SlotPath × Nat) × List (SlotPath × Nat)) × List MachineOperand)
    (h : BracketInv bd st.1) : BracketInv bd (ext_inst inv idn inst st).1 := by
  unfold ext_inst
  dsimp only
  refine foldl_pres (extStepMaps inv idn) (BracketInv bd) ?_ st.2 st.1 h
  intro maps lv hm
  unfold extStepMaps
  rcases lookupA inv lv with _ | v
  · exact hm
  · exact foldl_pres (extStepPath idn) (BracketInv bd)
      (fun m pb hmm => bracket_extStepPath bd idn m pb hmm) v maps hm

theorem bracket_extend_block (bd : IntervalData) (g : MachineFunc)
    (ids : List ((Nat × Nat) × Nat)) (inv : List (MachineOperand × List SlotPath))
    (b : Nat) (maps : List (SlotPath × Nat) × List (SlotPath × Nat))
    (h : BracketInv bd maps) : BracketInv bd (extend_block g ids inv b maps) := by
  unfold extend_block
  exact foldl_pres (fun st p => ext_inst inv (instIdOf ids b p.1) p.2 st)
    (fun st => BracketInv bd st.1)
    (fun st p hst => bracket_ext_inst bd inv (instIdOf ids b p.1) p.2 st hst)
    ((g.bb.getD b default).insts.enum.reverse)
    (maps, liveoutList (g.bb.getD b default)) h

theorem bracket_extend (bd : IntervalData) (g : MachineFunc)
    (ids : List ((Nat × Nat) × Nat)) (inv : List (MachineOperand × List SlotPath))
    (dfsl : List Nat) (maps : List (SlotPath × Nat) × List (SlotPath × Nat))
    (h : BracketInv bd maps) : BracketInv bd (extend_intervals g ids inv dfsl maps) := by
  unfold extend_intervals
  exact foldl_pres (fun m b => extend_block g ids inv b m) (BracketInv bd)
    (fun m b hm => bracket_extend_block bd g ids inv b m hm) dfsl maps h

/-- C3 (amended): the interval builder records one interval per def slot
(as the fC3 counterexample shows, per def occurrence and not per operand
identity), and the extension phase only widens each entry: the final
interval [s, e] of a def slot brackets the value it was created with — its
own instruction id — so every def occurrence lies within its recorded
interval, while use occurrences are only reflected through liveness at
earlier instructions and may lie outside it. -/
theorem interval_def_bracket (g : MachineFunc) (pa : SlotPath) (v : Nat)
    (h : lookupA (build_defs g (dfs_order g) (inst_ids g (dfs_order g))).o2start pa
        = some v) :
    ∃ s e, lookupA (round_core g).o2start pa = some s
      ∧ lookupA (round_core g).o2end pa = some e ∧ s ≤ v ∧ v ≤ e := by
  have hinit : BracketInv (build_defs g (dfs_order g) (inst_ids g (dfs_order g)))
      ((build_defs g (dfs_order g) (inst_ids g (dfs_order g))).o2start,
       (build_defs g (dfs_order g) (inst_ids g (dfs_order g))).o2end) := by
    intro pa2 v2 hv2
    exact ⟨v2, v2, hv2,
      (build_defs_start_eq_end g (dfs_order g) (inst_ids g (dfs_order g))) ▸ hv2,
      le_refl v2, le_refl v2⟩
  have hfin := bracket_extend (build_defs g (dfs_order g) (inst_ids g (dfs_order g))) g
    (inst_ids g (dfs_order g))
    (build_defs g (dfs_order g) (inst_ids g (dfs_order g))).inv (dfs_order g)
    ((build_defs g (dfs_order g) (inst_ids g (dfs_order g))).o2start,
     (build_defs g (dfs_order g) (inst_ids g (dfs_order g))).o2end) hinit
  exact hfin pa v h

/-- Witness for the amended C3 at fC3: the first def slot was created with
instruction id 1 and its final interval [1, 2] brackets it. -/
theorem interval_def_bracket_witness :
    ∃ s e, lookupA (round_core fC3).o2start (0, 0, SlotRole.dstR) = some s
      ∧ lookupA (round_core fC3).o2end (0, 0, SlotRole.dstR) = some e
      ∧ s ≤ 1 ∧ 1 ≤ e :=
  interval_def_bracket fC3 (0, 0, SlotRole.dstR) 1 (by decide)

/- ### Slot-level machinery for the scan invariants (claims about the
revert loop, lines 426-429, and the pre-marked used array, lines 284-306). -/

theorem getq_set_self {α : Type} (l : List α) (i : Nat) (a : α)
    (h : i < l.length) : (l.set i a).get? i = some a := by
  induction l generalizing i with
  | nil => simp at h
  | cons x t ih =>
      cases i with
      | zero => rfl
      | succ n => exact ih n (Nat.lt_of_succ_lt_succ h)

theorem getq_set_ne {α : Type} (l : List α) (i j : Nat) (a : α)
    (h : i ≠ j) : (l.set i a).get? j = l.get? j := by
  induction l generalizing i j with
  | nil => rfl
  | cons x t ih =>
      cases i with
      | zero =>
          cases j with
          | zero => exact absurd rfl h
          | succ m => rfl
      | succ n =>
          cases j with
          | zero => rfl
          | succ m => exact ih n m (fun he => h (by rw [he]))

theorem getq_some_lt {α : Type} (l : List α) (i : Nat) (a : α)
    (h : l.get? i = some a) : i < l.length := by
  induction l generalizing i with
  | nil => exact Option.noConfusion h
  | cons x t ih =>
      cases i with
      | zero => exact Nat.succ_pos _
      | succ n => exact Nat.succ_lt_succ (ih n h)

theorem getq_getD {α : Type} (l : List α) (i : Nat) (d : α)
    (h : i < l.length) : l.get? i = some (l.getD i d) := by
  induction l generalizing i with
  | nil => simp at h
  | cons x t ih =>
      cases i with
      | zero => rfl
      | succ n => exact ih n (Nat.lt_of_succ_lt_succ h)

theorem lset_set_same {α : Type} (l : List α) (i : Nat) (a b : α) :
    (l.set i a).set i b = l.set i b := by
  induction l generalizing i with
  | nil => rfl
  | cons x t ih =>
      cases i with
      | zero => rfl
      | succ n => simp only [List.set_cons_succ]; rw [ih n]

theorem lset_comm {α : Type} (l : List α) (i j : Nat) (a b : α)
    (h : i ≠ j) : (l.set i a).set j b = (l.set j b).set i a := by
  induction l generalizing i j with
  | nil => rfl
  | cons x t ih =>
      cases i with
      | zero =>
          cases j with
          | zero => exact absurd rfl h
          | succ m => rfl
      | succ n =>
          cases j with
          | zero => rfl
          | succ m =>
              simp only [List.set_cons_succ]
              rw [ih n m (fun he => h (by rw [he]))]

theorem lset_self {α : Type} (l : List α) (i : Nat) (a : α)
    (h : l.get? i = some a) : l.set i a = l := by
  induction l generalizing i with
  | nil => rfl
  | cons x t ih =>
      cases i with
      | zero =>
          injection h with h1
          rw [List.set_cons_zero, h1]
      | succ n =>
          simp only [List.set_cons_succ]
          rw [ih n h]

theorem slotpath_cases (q pa : SlotPath) (h : q ≠ pa) :
    q.1 ≠ pa.1 ∨ (q.1 = pa.1 ∧ q.2.1 ≠ pa.2.1)
      ∨ (q.1 = pa.1 ∧ q.2.1 = pa.2.1 ∧ q.2.2 ≠ pa.2.2) := by
  by_cases h1 : q.1 = pa.1
  · by_cases h2 : q.2.1 = pa.2.1
    · refine Or.inr (Or.inr ⟨h1, h2, fun h3 => h ?_⟩)
      obtain ⟨qb, qi, qr⟩ := q
      obtain ⟨pb, pi2, pr⟩ := pa
      simp only at h1 h2 h3
      rw [h1, h2, h3]
    · exact Or.inr (Or.inl ⟨h1, h2⟩)
  · exact Or.inl h1

theorem slot_set_get_same (inst : MInst) (r : SlotRole) (x : MachineOperand) :
    getSlotInst (setSlotInst inst r x) r = (getSlotInst inst r).map (fun _ => x) := by
  cases inst <;> cases r <;> rfl

theorem slot_set_get_ne (inst : MInst) (r r2 : SlotRole) (x : MachineOperand)
    (h : r ≠ r2) : getSlotInst (setSlotInst inst r x) r2 = getSlotInst inst r2 := by
  cases inst <;> cases r <;> cases r2 <;> first | rfl | exact absurd rfl h

theorem slot_set_set_same (inst : MInst) (r : SlotRole) (x y : MachineOperand) :
    setSlotInst (setSlotInst inst r x) r y = setSlotInst inst r y := by
  cases inst <;> cases r <;> rfl

theorem slot_set_comm (inst : MInst) (r r2 : SlotRole) (x y : MachineOperand)
    (h : r ≠ r2) :
    setSlotInst (setSlotInst inst r x) r2 y = setSlotInst (setSlotInst inst r2 y) r x := by
  cases inst <;> cases r <;> cases r2 <;> first | rfl | exact absurd rfl h

theorem slot_set_self (inst : MInst) (r : SlotRole) (op : MachineOperand)
    (h : getSlotInst inst r = some op) : setSlotInst inst r op = inst := by
  cases inst <;> cases r <;> first | rfl | (injection h with h1; subst h1; rfl)

theorem getSlot_none (p : Prog) (pa : SlotPath)
    (h : (p.getD pa.1 []).get? pa.2.1 = none) : getSlot p pa = none := by
  unfold getSlot getInst
  rw [h]

theorem getSlot_some (p : Prog) (pa : SlotPath) (inst : MInst)
    (h : (p.getD pa.1 []).get? pa.2.1 = some inst) :
    getSlot p pa = getSlotInst inst pa.2.2 := by
  unfold getSlot getInst
  rw [h]

theorem setSlot_none (p : Prog) (pa : SlotPath) (x : MachineOperand)
    (h : (p.getD pa.1 []).get? pa.2.1 = none) : setSlot p pa x = p := by
  unfold setSlot getInst
  rw [h]

theorem setSlot_some (p : Prog) (pa : SlotPath) (inst : MInst) (x : MachineOperand)
    (h : (p.getD pa.1 []).get? pa.2.1 = some inst) :
    setSlot p pa x = p.set pa.1 ((p.getD pa.1 []).set pa.2.1 (setSlotInst inst pa.2.2 x)) := by
  unfold setSlot getInst
  rw [h]

theorem getSlot_congr (p1 p2 : Prog) (pa : SlotPath)
    (h : (p1.getD pa.1 []).get? pa.2.1 = (p2.getD pa.1 []).get? pa.2.1) :
    getSlot p1 pa = getSlot p2 pa := by
  unfold getSlot getInst
  rw [h]

theorem block_lt_of_getq (p : Prog) (b i : Nat) (inst : MInst)
    (h : (p.getD b []).get? i = some inst) : b < p.length := by
  by_cases hb : b < p.length
  · exact hb
  · rw [getD_len_le p b [] (Nat.le_of_not_lt hb)] at h
    exact Option.noConfusion h

theorem getSlot_setSlot_self (p : Prog) (pa : SlotPath) (op x : MachineOperand)
    (h : getSlot p pa = some op) : getSlot (setSlot p pa x) pa = some x := by
  rcases hI : (p.getD pa.1 []).get? pa.2.1 with _ | inst
  · rw [getSlot_none p pa hI] at h
    exact Option.noConfusion h
  · have hb : pa.1 < p.length := block_lt_of_getq p pa.1 pa.2.1 inst hI
    have hi : pa.2.1 < (p.getD pa.1 []).length := getq_some_lt _ _ _ hI
    rw [setSlot_some p pa inst x hI]
    have hI2 : ((p.set pa.1 ((p.getD pa.1 []).set pa.2.1 (setSlotInst inst pa.2.2 x))).getD
        pa.1 []).get? pa.2.1 = some (setSlotInst inst pa.2.2 x) := by
      rw [getD_set_self _ _ _ _ hb]
      exact getq_set_self _ _ _ hi
    rw [getSlot_some _ pa _ hI2, slot_set_get_same]
    rw [getSlot_some p pa inst hI] at h
    rw [h]
    rfl

theorem getSlot_setSlot_ne (p : Prog) (q pa : SlotPath) (x : MachineOperand)
    (hne : q ≠ pa) : getSlot (setSlot p q x) pa = getSlot p pa := by
  rcases hI : (p.getD q.1 []).get? q.2.1 with _ | inst
  · rw [setSlot_none p q x hI]
  · have hb : q.1 < p.length := block_lt_of_getq p q.1 q.2.1 inst hI
    have hi : q.2.1 < (p.getD q.1 []).length := getq_some_lt _ _ _ hI
    rw [setSlot_some p q inst x hI]
    rcases slotpath_cases q pa hne with h1 | ⟨h1, h2⟩ | ⟨h1, h2, h3⟩
    · refine getSlot_congr _ _ pa ?_
      rw [getD_set_ne _ _ _ _ _ h1]
    · refine getSlot_congr _ _ pa ?_
      rw [← h1, getD_set_self _ _ _ _ hb, getq_set_ne _ _ _ _ h2]
    · have hD : ((p.set q.1 ((p.getD q.1 []).set q.2.1 (setSlotInst inst q.2.2 x))).getD
          pa.1 []).get? pa.2.1 = some (setSlotInst inst q.2.2 x) := by
        rw [← h1, ← h2, getD_set_self _ _ _ _ hb]
        exact getq_set_self _ _ _ hi
      have hP : (p.getD pa.1 []).get? pa.2.1 = some inst := by
        rw [← h1, ← h2]
        exact hI
      rw [getSlot_some _ pa _ hD, getSlot_some p pa inst hP]
      exact slot_set_get_ne inst q.2.2 pa.2.2 x h3

theorem setSlot_setSlot_same (p : Prog) (pa : SlotPath) (x y : MachineOperand) :
    setSlot (setSlot p pa x) pa y = setSlot p pa y := by
  rcases hI : (p.getD pa.1 []).get? pa.2.1 with _ | inst
  · rw [setSlot_none p pa x hI]
  · have hb : pa.1 < p.length := block_lt_of_getq p pa.1 pa.2.1 inst hI
    have hi : pa.2.1 < (p.getD pa.1 []).length := getq_some_lt _ _ _ hI
    rw [setSlot_some p pa inst x hI]
    have hI2 : ((p.set pa.1 ((p.getD pa.1 []).set pa.2.1 (setSlotInst inst pa.2.2 x))).getD
        pa.1 []).get? pa.2.1 = some (setSlotInst inst pa.2.2 x) := by
      rw [getD_set_self _ _ _ _ hb]
      exact getq_set_self _ _ _ hi
    rw [setSlot_some _ pa _ y hI2, setSlot_some p pa inst y hI]
    rw [getD_set_self _ _ _ _ hb, lset_set_same, slot_set_set_same, lset_set_same]

theorem setSlot_self_eq (p : Prog) (pa : SlotPath) (op : MachineOperand)
    (h : getSlot p pa = some op) : setSlot p pa op = p := by
  rcases hI : (p.getD pa.1 []).get? pa.2.1 with _ | inst
  · exact setSlot_none p pa op hI
  · have hb : pa.1 < p.length := block_lt_of_getq p pa.1 pa.2.1 inst hI
    rw [getSlot_some p pa inst hI] at h
    rw [setSlot_some p pa inst op hI, slot_set_self inst pa.2.2 op h,
        lset_self _ _ _ hI, lset_self _ _ _ (getq_getD p pa.1 [] hb)]

theorem getq_setSlot_none (p : Prog) (q : SlotPath) (y : MachineOperand) (pb pi2 : Nat)
    (hP : (p.getD pb []).get? pi2 = none) :
    (((setSlot p q y).getD pb []).get? pi2) = none := by
  rcases hQ : (p.getD q.1 []).get? q.2.1 with _ | iq
  · rw [setSlot_none p q y hQ]
    exact hP
  · have hb : q.1 < p.length := block_lt_of_getq p q.1 q.2.1 iq hQ
    rw [setSlot_some p q iq y hQ]
    by_cases h1 : q.1 = pb
    · rw [h1] at hb ⊢
      rw [getD_set_self _ _ _ _ hb]
      by_cases h2 : q.2.1 = pi2
      · rw [h1, h2, hP] at hQ
        exact Option.noConfusion hQ
      · rw [getq_set_ne _ _ _ _ h2]
        exact hP
    · rw [getD_set_ne _ _ _ _ _ h1]
      exact hP

theorem setSlot_comm (p : Prog) (q pa : SlotPath) (x y : MachineOperand)
    (hne : q ≠ pa) :
    setSlot (setSlot p pa x) q y = setSlot (setSlot p q y) pa x := by
  rcases hP : (p.getD pa.1 []).get? pa.2.1 with _ | ia
  · rw [setSlot_none p pa x hP,
        setSlot_none (setSlot p q y) pa x (getq_setSlot_none p q y pa.1 pa.2.1 hP)]
  · rcases hQ : (p.getD q.1 []).get? q.2.1 with _ | iq
    · rw [setSlot_none p q y hQ,
          setSlot_none (setSlot p pa x) q y
            (getq_setSlot_none p pa x q.1 q.2.1 hQ)]
    · have hbp : pa.1 < p.length := block_lt_of_getq p pa.1 pa.2.1 ia hP
      have hip : pa.2.1 < (p.getD pa.1 []).length := getq_some_lt _ _ _ hP
      have hbq : q.1 < p.length := block_lt_of_getq p q.1 q.2.1 iq hQ
      have hiq : q.2.1 < (p.getD q.1 []).length := getq_some_lt _ _ _ hQ
      rw [setSlot_some p pa ia x hP, setSlot_some p q iq y hQ]
      rcases slotpath_cases q pa hne with h1 | ⟨h1, h2⟩ | ⟨h1, h2, h3⟩
      · have hfq : (((p.set pa.1 ((p.getD pa.1 []).set pa.2.1 (setSlotInst ia pa.2.2 x))).getD
            q.1 []).get? q.2.1) = some iq := by
          rw [getD_set_ne _ _ _ _ _ (fun he => h1 he.symm)]
          exact hQ
        have hfp : (((p.set q.1 ((p.getD q.1 []).set q.2.1 (setSlotInst iq q.2.2 y))).getD
            pa.1 []).get? pa.2.1) = some ia := by
          rw [getD_set_ne _ _ _ _ _ h1]
          exact hP
        rw [setSlot_some _ q iq y hfq, setSlot_some _ pa ia x hfp]
        rw [getD_set_ne _ _ _ _ _ (fun he => h1 he.symm), getD_set_ne _ _ _ _ _ h1]
        exact lset_comm p pa.1 q.1 _ _ (fun he => h1 he.symm)
      · rw [h1] at hQ hbq hiq ⊢
        have hfq : (((p.set pa.1 ((p.getD pa.1 []).set pa.2.1 (setSlotInst ia pa.2.2 x))).getD
            q.1 []).get? q.2.1) = some iq := by
          rw [h1, getD_set_self _ _ _ _ hbp, getq_set_ne _ _ _ _ (fun he => h2 he.symm)]
          exact hQ
        have hfp : (((p.set pa.1 ((p.getD pa.1 []).set q.2.1 (setSlotInst iq q.2.2 y))).getD
            pa.1 []).get? pa.2.1) = some ia := by
          rw [getD_set_self _ _ _ _ hbp, getq_set_ne _ _ _ _ h2]
          exact hP
        rw [setSlot_some _ q iq y hfq, setSlot_some _ pa ia x hfp]
        rw [h1]
        rw [getD_set_self _ _ _ _ hbp, getD_set_self _ _ _ _ hbp]
        rw [lset_set_same, lset_set_same]
        rw [lset_comm _ pa.2.1 q.2.1 _ _ (fun he => h2 he.symm)]
      · rw [h1] at hQ hbq ⊢
        rw [h2] at hQ hiq ⊢
        rw [hP] at hQ
        have hia : ia = iq := (Option.some.injEq _ _).mp hQ
        subst hia
        have hfq : (((p.set pa.1 ((p.getD pa.1 []).set pa.2.1 (setSlotInst ia pa.2.2 x))).getD
            q.1 []).get? q.2.1) = some (setSlotInst ia pa.2.2 x) := by
          rw [h1, h2, getD_set_self _ _ _ _ hbp]
          exact getq_set_self _ _ _ hip
        have hfp : (((p.set pa.1 ((p.getD pa.1 []).set pa.2.1 (setSlotInst ia q.2.2 y))).getD
            pa.1 []).get? pa.2.1) = some (setSlotInst ia q.2.2 y) := by
          rw [getD_set_self _ _ _ _ hbp]
          exact getq_set_self _ _ _ hip
        rw [setSlot_some _ q _ y hfq, setSlot_some _ pa _ x hfp]
        rw [h1, h2]
        rw [getD_set_self _ _ _ _ hbp, getD_set_self _ _ _ _ hbp]
        rw [lset_set_same, lset_set_same, lset_set_same, lset_set_same]
        rw [slot_set_comm ia pa.2.2 q.2.2 x y (fun he => h3 he.symm)]

/-- Translation of the revert loop (lines 426-429): every slot recorded in
alloc is set back to the Virtual state with its remembered original value.
(The source iterates the std::map in key order; since each key occurs once
and writes to distinct slots commute, the fold order does not change the
result.) -/
def revertAlloc (al : List (SlotPath × Int)) (c : Prog) : Prog :=
  al.foldl (fun c e => setSlot c e.1 ⟨OpState.Virtual, e.2⟩) c

theorem revertAlloc_nil (c : Prog) : revertAlloc [] c = c := rfl

theorem revertAlloc_cons (e : SlotPath × Int) (al : List (SlotPath × Int)) (c : Prog) :
    revertAlloc (e :: al) c = revertAlloc al (setSlot c e.1 ⟨OpState.Virtual, e.2⟩) := rfl

theorem revertAlloc_append (al1 al2 : List (SlotPath × Int)) (c : Prog) :
    revertAlloc (al1 ++ al2) c = revertAlloc al2 (revertAlloc al1 c) :=
  List.foldl_append _ _ _ _

theorem revertAlloc_mem (al : List (SlotPath × Int)) (pa : SlotPath) (x : MachineOperand)
    (c : Prog) (h : pa ∈ al.map Prod.fst) :
    revertAlloc al (setSlot c pa x) = revertAlloc al c := by
  induction al generalizing c with
  | nil => simp at h
  | cons e l ih =>
      rw [revertAlloc_cons, revertAlloc_cons]
      by_cases he : e.1 = pa
      · rw [he, setSlot_setSlot_same]
      · have hm : pa ∈ l.map Prod.fst := by
          simp only [List.map_cons, List.mem_cons] at h
          rcases h with h1 | h1
          · exact absurd h1.symm he
          · exact h1
        rw [setSlot_comm c e.1 pa _ _ he]
        exact ih _ hm

theorem revertAlloc_not_mem (al : List (SlotPath × Int)) (pa : SlotPath)
    (x : MachineOperand) (c : Prog) (h : pa ∉ al.map Prod.fst) :
    revertAlloc al (setSlot c pa x) = setSlot (revertAlloc al c) pa x := by
  induction al generalizing c with
  | nil => rfl
  | cons e l ih =>
      have he : e.1 ≠ pa := fun hx => h (List.mem_map.mpr ⟨e, List.mem_cons_self _ _, hx⟩)
      have hm : pa ∉ l.map Prod.fst := fun hx => by
        rcases List.mem_map.mp hx with ⟨u, hu, hu2⟩
        exact h (List.mem_map.mpr ⟨u, List.mem_cons_of_mem _ hu, hu2⟩)
      rw [revertAlloc_cons, setSlot_comm c e.1 pa _ _ he,
          ih _ hm, revertAlloc_cons]

theorem revertAlloc_erase (al : List (SlotPath × Int)) (sp : SlotPath) (w : Int)
    (c : Prog) (h : lookupA al sp = some w) :
    revertAlloc (eraseA al sp) (setSlot c sp ⟨OpState.Virtual, w⟩) = revertAlloc al c := by
  induction al generalizing c with
  | nil => exact Option.noConfusion h
  | cons e l ih =>
      by_cases he : e.1 = sp
      · have hw : e.2 = w := by
          have : lookupA (e :: l) sp = some e.2 := by simp [lookupA, he]
          rw [h] at this
          exact ((Option.some.injEq _ _).mp this).symm
        rw [revertAlloc_cons]
        show revertAlloc (eraseA (e :: l) sp) _ = _
        unfold eraseA
        rw [if_pos he, he, hw]
      · have hl : lookupA l sp = some w := by
          rw [← h]
          simp [lookupA, he]
        rw [revertAlloc_cons]
        show revertAlloc (eraseA (e :: l) sp) _ = _
        unfold eraseA
        rw [if_neg he, revertAlloc_cons,
            setSlot_comm _ e.1 sp _ _ he]
        exact ih _ hl

theorem lookupA_none_iff {κ ν : Type} [DecidableEq κ] (l : List (κ × ν)) (k : κ) :
    lookupA l k = none ↔ k ∉ l.map Prod.fst := by
  induction l with
  | nil => simp [lookupA]
  | cons e t ih =>
      by_cases he : e.1 = k
      · simp [lookupA, he]
      · simp [lookupA, he, ih, Ne.symm he]

theorem lookupA_some_mem {κ ν : Type} [DecidableEq κ] (l : List (κ × ν)) (k : κ) (v : ν)
    (h : lookupA l k = some v) : k ∈ l.map Prod.fst := by
  by_cases hm : k ∈ l.map Prod.fst
  · exact hm
  · rw [(lookupA_none_iff l k).mpr hm] at h
    exact Option.noConfusion h

theorem mem_lookupA_isSome {κ ν : Type} [DecidableEq κ] (l : List (κ × ν)) (k : κ)
    (h : k ∈ l.map Prod.fst) : ∃ v, lookupA l k = some v := by
  rcases hl : lookupA l k with _ | v
  · exact absurd h ((lookupA_none_iff l k).mp hl)
  · exact ⟨v, rfl⟩

theorem lookupA_append_left {κ ν : Type} [DecidableEq κ] (l1 l2 : List (κ × ν)) (k : κ)
    (v : ν) (h : lookupA l1 k = some v) : lookupA (l1 ++ l2) k = some v := by
  induction l1 with
  | nil => exact Option.noConfusion h
  | cons e t ih =>
      by_cases he : e.1 = k
      · simp only [lookupA, he, if_pos] at h ⊢
        exact h
      · simp only [List.cons_append, lookupA, he, if_false, ite_false] at h ⊢
        exact ih h

theorem lookupA_append_right {κ ν : Type} [DecidableEq κ] (l1 l2 : List (κ × ν)) (k : κ)
    (h : lookupA l1 k = none) : lookupA (l1 ++ l2) k = lookupA l2 k := by
  induction l1 with
  | nil => rfl
  | cons e t ih =>
      by_cases he : e.1 = k
      · simp [lookupA, he] at h
      · simp only [List.cons_append, lookupA, he, if_false, ite_false] at h ⊢
        exact ih h

theorem lookupA_single {κ ν : Type} [DecidableEq κ] (k q : κ) (v : ν) :
    lookupA [(k, v)] q = if k = q then some v else none := rfl

theorem insertA_of_some {κ ν : Type} [DecidableEq κ] (l : List (κ × ν)) (k : κ) (v w : ν)
    (h : lookupA l k = some w) : insertA l k v = l := by
  unfold insertA
  rw [h]

theorem insertA_of_none {κ ν : Type} [DecidableEq κ] (l : List (κ × ν)) (k : κ) (v : ν)
    (h : lookupA l k = none) : insertA l k v = l ++ [(k, v)] := by
  unfold insertA
  rw [h]

theorem lookupA_eraseA_ne {κ ν : Type} [DecidableEq κ] (l : List (κ × ν)) (k q : κ)
    (h : q ≠ k) : lookupA (eraseA l k) q = lookupA l q := by
  induction l with
  | nil => rfl
  | cons e t ih =>
      by_cases he : e.1 = k
      · show lookupA (if e.1 = k then t else e :: eraseA t k) q = _
        rw [if_pos he]
        have hq : ¬e.1 = q := fun hx => h (by rw [← hx, he])
        simp [lookupA, hq]
      · show lookupA (if e.1 = k then t else e :: eraseA t k) q = _
        rw [if_neg he]
        by_cases hq : e.1 = q
        · simp [lookupA, hq]
        · simp [lookupA, hq, ih]

theorem lookupA_eraseA_self {κ ν : Type} [DecidableEq κ] (l : List (κ × ν)) (k : κ)
    (h : (l.map Prod.fst).Nodup) : lookupA (eraseA l k) k = none := by
  induction l with
  | nil => rfl
  | cons e t ih =>
      simp only [List.map_cons, List.nodup_cons] at h
      by_cases he : e.1 = k
      · show lookupA (if e.1 = k then t else e :: eraseA t k) k = none
        rw [if_pos he]
        exact (lookupA_none_iff t k).mpr (he ▸ h.1)
      · show lookupA (if e.1 = k then t else e :: eraseA t k) k = none
        rw [if_neg he]
        simp only [lookupA, he, if_false, ite_false]
        exact ih h.2

theorem keys_eraseA_sub {κ ν : Type} [DecidableEq κ] (l : List (κ × ν)) (k q : κ)
    (h : q ∈ (eraseA l k).map Prod.fst) : q ∈ l.map Prod.fst := by
  induction l with
  | nil => exact absurd h (by simp [eraseA])
  | cons e t ih =>
      revert h
      show q ∈ (if e.1 = k then t else e :: eraseA t k).map Prod.fst → _
      by_cases he : e.1 = k
      · rw [if_pos he]
        intro h
        simp only [List.map_cons, List.mem_cons]
        exact Or.inr h
      · rw [if_neg he]
        intro h
        simp only [List.map_cons, List.mem_cons] at h ⊢
        rcases h with h1 | h1
        · exact Or.inl h1
        · exact Or.inr (ih h1)

theorem mem_keys_eraseA {κ ν : Type} [DecidableEq κ] (l : List (κ × ν)) (k q : κ)
    (hq : q ∈ l.map Prod.fst) (hne : q ≠ k) : q ∈ (eraseA l k).map Prod.fst := by
  rcases mem_lookupA_isSome l q hq with ⟨v, hv⟩
  refine lookupA_some_mem (eraseA l k) q v ?_
  rw [lookupA_eraseA_ne l k q hne]
  exact hv

theorem nodup_keys_eraseA {κ ν : Type} [DecidableEq κ] (l : List (κ × ν)) (k : κ)
    (h : (l.map Prod.fst).Nodup) : ((eraseA l k).map Prod.fst).Nodup := by
  induction l with
  | nil => exact h
  | cons e t ih =>
      simp only [List.map_cons, List.nodup_cons] at h
      show (((if e.1 = k then t else e :: eraseA t k)).map Prod.fst).Nodup
      by_cases he : e.1 = k
      · rw [if_pos he]
        exact h.2
      · rw [if_neg he]
        simp only [List.map_cons, List.nodup_cons]
        exact ⟨fun hx => h.1 (keys_eraseA_sub t k e.1 hx), ih h.2⟩

theorem keys_insertA_sub {κ ν : Type} [DecidableEq κ] (l : List (κ × ν)) (k q : κ) (v : ν)
    (h : q ∈ l.map Prod.fst) : q ∈ (insertA l k v).map Prod.fst := by
  rcases hl : lookupA l k with _ | w
  · rw [insertA_of_none l k v hl, List.map_append]
    exact List.mem_append_left _ h
  · rw [insertA_of_some l k v w hl]
    exact h

theorem mem_keys_insertA {κ ν : Type} [DecidableEq κ] (l : List (κ × ν)) (k : κ) (v : ν) :
    k ∈ (insertA l k v).map Prod.fst := by
  rcases hl : lookupA l k with _ | w
  · rw [insertA_of_none l k v hl, List.map_append]
    exact List.mem_append_right _ (by simp)
  · rw [insertA_of_some l k v w hl]
    exact lookupA_some_mem l k w hl

theorem keys_setA {κ ν : Type} [DecidableEq κ] (l : List (κ × ν)) (k : κ) (v : ν) :
    (setA l k v).map Prod.fst = if k ∈ l.map Prod.fst then l.map Prod.fst
      else l.map Prod.fst ++ [k] := by
  induction l with
  | nil => simp [setA]
  | cons e t ih =>
      show ((if e.1 = k then (k, v) :: t else e :: setA t k v)).map Prod.fst = _
      by_cases he : e.1 = k
      · rw [if_pos he]
        simp [he]
      · rw [if_neg he]
        simp only [List.map_cons, ih]
        by_cases hm : k ∈ t.map Prod.fst
        · simp [hm, Ne.symm he]
        · simp [hm, Ne.symm he]

theorem nodup_keys_setA {κ ν : Type} [DecidableEq κ] (l : List (κ × ν)) (k : κ) (v : ν)
    (h : (l.map Prod.fst).Nodup) : ((setA l k v).map Prod.fst).Nodup := by
  rw [keys_setA]
  by_cases hm : k ∈ l.map Prod.fst
  · rw [if_pos hm]
    exact h
  · rw [if_neg hm]
    refine List.Nodup.append h (List.nodup_singleton k) ?_
    intro a ha hak
    exact hm (List.mem_singleton.mp hak ▸ ha)

theorem usedGet_set_ne (l : List Bool) (k r : Nat) (x : Bool) (h : k ≠ r) :
    usedGet (l.set k x) r = usedGet l r := by
  unfold usedGet
  exact getD_set_ne l k r x false h

theorem usedGet_set_true (l : List Bool) (k r : Nat) (h : usedGet l r = true) :
    usedGet (l.set k true) r = true := by
  by_cases hk : k = r
  · subst hk
    by_cases hl : k < l.length
    · unfold usedGet
      rw [getD_set_self l k true false hl]
    · rw [set_len_le l k true (Nat.le_of_not_lt hl)]
      exact h
  · rw [usedGet_set_ne l k r true hk]
    exact h

theorem set_last_decomp {α : Type} : ∀ (l : List α) (x : α), l ≠ [] →
    l.set (l.length - 1) x = l.dropLast ++ [x]
  | [], _, h => absurd rfl h
  | [_], _, _ => rfl
  | a :: b :: t, x, _ => by
      have ih := set_last_decomp (b :: t) x (by simp)
      show a :: (b :: t).set ((b :: t).length - 1) x = a :: ((b :: t).dropLast ++ [x])
      rw [ih]

theorem getLastq_mem {α : Type} (l : List α) (a : α) (h : l.getLast? = some a) : a ∈ l := by
  cases l with
  | nil => exact Option.noConfusion h
  | cons x t =>
      have hne : x :: t ≠ [] := by simp
      rw [List.getLast?_eq_getLast _ hne] at h
      injection h with h1
      rw [← h1]
      exact List.getLast_mem hne

theorem getLast_not_mem_dropLast {α : Type} (l : List α) (a : α) (hnd : l.Nodup)
    (h : l.getLast? = some a) : a ∉ l.dropLast := by
  cases l with
  | nil => exact Option.noConfusion h
  | cons x t =>
      have hne : x :: t ≠ [] := by simp
      rw [List.getLast?_eq_getLast _ hne] at h
      injection h with h1
      have hsplit : (x :: t).dropLast ++ [(x :: t).getLast hne] = x :: t :=
        List.dropLast_append_getLast hne
      rw [← hsplit] at hnd
      rcases List.nodup_append.mp hnd with ⟨_, _, hdisj⟩
      intro hmem
      exact hdisj hmem (h1 ▸ List.mem_singleton.mpr rfl)

theorem set_swap_perm {α : Type} [Inhabited α] : ∀ (l : List α) (i : Nat),
    i + 1 < l.length →
    ((l.set (i + 1) (l.getD i default)).set i (l.getD (i + 1) default)).Perm l
  | [], _, h => by simp at h
  | [x], i, h => by
      simp only [List.length_singleton] at h
      omega
  | x :: y :: t, 0, _ => by
      show (y :: x :: t).Perm (x :: y :: t)
      exact List.Perm.swap x y t
  | x :: y :: t, i + 1, h => by
      have h2 : i + 1 < (y :: t).length := by
        simp only [List.length_cons] at h ⊢
        omega
      have ih := set_swap_perm (y :: t) i h2
      show (x :: (((y :: t).set (i + 1) ((y :: t).getD i default)).set i
        ((y :: t).getD (i + 1) default))).Perm (x :: y :: t)
      exact List.Perm.cons x ih

theorem active_bubble_step_perm (key : SlotPath → Nat) (l : List SlotPath) (k : Nat)
    (hk1 : 1 ≤ k) (hkl : k < l.length) :
    (if key (l.getD k default) < key (l.getD (k - 1) default)
      then (l.set k (l.getD (k - 1) default)).set (k - 1) (l.getD k default)
      else l).Perm l := by
  by_cases hc : key (l.getD k default) < key (l.getD (k - 1) default)
  · rw [if_pos hc]
    have hk : k - 1 + 1 = k := Nat.sub_add_cancel hk1
    have := set_swap_perm l (k - 1) (by rw [hk]; exact hkl)
    rw [hk] at this
    exact this
  · rw [if_neg hc]

theorem active_bubble_perm (key : SlotPath → Nat) (l : List SlotPath) :
    (active_bubble key l).Perm l := by
  unfold active_bubble
  have hgen : ∀ (ks : List Nat), (∀ k ∈ ks, 1 ≤ k ∧ k < l.length) →
      ∀ acc : List SlotPath, acc.Perm l → (ks.foldl
        (fun l2 k =>
          if key (l2.getD k default) < key (l2.getD (k - 1) default)
            then (l2.set k (l2.getD (k - 1) default)).set (k - 1) (l2.getD k default)
            else l2) acc).Perm l := by
    intro ks
    induction ks with
    | nil => exact fun _ acc h => h
    | cons k kt ih =>
        intro hks acc hacc
        have hk := hks k (List.mem_cons_self _ _)
        have hstep := active_bubble_step_perm key acc k hk.1
          (by rw [List.Perm.length_eq hacc]; exact hk.2)
        exact ih (fun k2 hk2 => hks k2 (List.mem_cons_of_mem _ hk2)) _
          (hstep.trans hacc)
  refine hgen _ ?_ l (List.Perm.refl l)
  intro k hk
  rcases List.mem_reverse.mp hk with hk2
  rcases List.mem_map.mp hk2 with ⟨j, hj, hjk⟩
  rcases List.mem_range.mp hj with hjr
  omega

theorem expireOld_nil (o2e : List (SlotPath × Nat)) (sv : Nat) (c : Prog)
    (used : List Bool) : expireOld o2e sv c used [] = (used, []) := rfl

theorem expireOld_cons_stop (o2e : List (SlotPath × Nat)) (sv : Nat) (c : Prog)
    (used : List Bool) (a : SlotPath) (rest : List SlotPath)
    (hc : sv ≤ keyEnd o2e a) :
    expireOld o2e sv c used (a :: rest) = (used, a :: rest) := by
  unfold expireOld
  rw [if_pos hc]

theorem expireOld_cons_some (o2e : List (SlotPath × Nat)) (sv : Nat) (c : Prog)
    (used : List Bool) (a : SlotPath) (rest : List SlotPath) (op : MachineOperand)
    (hc : ¬ sv ≤ keyEnd o2e a) (hg : getSlot c a = some op) :
    expireOld o2e sv c used (a :: rest)
      = expireOld o2e sv c (used.set op.value.toNat false) rest := by
  conv_lhs => unfold expireOld
  rw [if_neg hc, hg]

theorem expireOld_cons_none (o2e : List (SlotPath × Nat)) (sv : Nat) (c : Prog)
    (used : List Bool) (a : SlotPath) (rest : List SlotPath)
    (hc : ¬ sv ≤ keyEnd o2e a) (hg : getSlot c a = none) :
    expireOld o2e sv c used (a :: rest) = expireOld o2e sv c used rest := by
  conv_lhs => unfold expireOld
  rw [if_neg hc, hg]

theorem expireOld_sublist (o2e : List (SlotPath × Nat)) (sv : Nat) (c : Prog) :
    ∀ (act : List SlotPath) (used : List Bool),
      ((expireOld o2e sv c used act).2).Sublist act
  | [], used => by rw [expireOld_nil]
  | a :: rest, used => by
      by_cases hc : sv ≤ keyEnd o2e a
      · rw [expireOld_cons_stop o2e sv c used a rest hc]
      · rcases hg : getSlot c a with _ | op
        · rw [expireOld_cons_none o2e sv c used a rest hc hg]
          exact List.Sublist.cons a (expireOld_sublist o2e sv c rest used)
        · rw [expireOld_cons_some o2e sv c used a rest op hc hg]
          exact List.Sublist.cons a (expireOld_sublist o2e sv c rest _)

theorem expireOld_used (o2e : List (SlotPath × Nat)) (sv : Nat) (c : Prog) (r : Nat) :
    ∀ (act : List SlotPath) (used : List Bool), usedGet used r = true →
      (∀ q ∈ act, ∀ op, getSlot c q = some op → op.value.toNat ≠ r) →
      usedGet (expireOld o2e sv c used act).1 r = true
  | [], used, hu, _ => by
      rw [expireOld_nil]
      exact hu
  | a :: rest, used, hu, hav => by
      by_cases hc : sv ≤ keyEnd o2e a
      · rw [expireOld_cons_stop o2e sv c used a rest hc]
        exact hu
      · rcases hg : getSlot c a with _ | op
        · rw [expireOld_cons_none o2e sv c used a rest hc hg]
          exact expireOld_used o2e sv c r rest used hu
            (fun q hq => hav q (List.mem_cons_of_mem _ hq))
        · rw [expireOld_cons_some o2e sv c used a rest op hc hg]
          refine expireOld_used o2e sv c r rest _ ?_
            (fun q hq => hav q (List.mem_cons_of_mem _ hq))
          rw [usedGet_set_ne _ _ _ _ (hav a (List.mem_cons_self _ _) op hg)]
          exact hu

/-- A value avoids every register pre-marked by the used-array scan: it is
neither that register id as an Int nor maps to it under toNat. -/
def AvoidsMarked (g : MachineFunc) (v : Int) : Prop :=
  ∀ r : Nat, r < 13 → usedGet (premark_used g (dfs_order g)) r = true →
    v ≠ (r : Int) ∧ v.toNat ≠ r

/-- The joint invariant of the linear scan and the use sweep: the alloc map
undoes every coloring (revert restores the input program), uncolored slots
are untouched, recorded original values are the input's virtual ids, the
key lists stay duplicate-free, active slots are colored with values that
avoid pre-marked registers, pre-marked bits stay set, the allocated map
only hands out values avoiding pre-marked registers, and a slot holding a
pre-marked register id as an Allocated value is unchanged from the input. -/
structure ScanInv (g : MachineFunc) (st : ScanState) : Prop where
  hrev : revertAlloc st.alloc st.cur = progOf g
  hunc : ∀ q, lookupA st.alloc q = none → getSlot st.cur q = getSlot (progOf g) q
  horig : ∀ q v, lookupA st.alloc q = some v →
    getSlot (progOf g) q = some ⟨OpState.Virtual, v⟩ ∧ (getSlot st.cur q).isSome = true
  hnd : (st.alloc.map Prod.fst).Nodup
  hndd : (st.allocd.map Prod.fst).Nodup
  hsub : ∀ q ∈ st.active, q ∈ st.alloc.map Prod.fst
  hact : ∀ q ∈ st.active, ∃ op, getSlot st.cur q = some op
    ∧ op.state = OpState.Allocated ∧ AvoidsMarked g op.value
  hand : st.active.Nodup
  hused : ∀ r : Nat, r < 13 → usedGet (premark_used g (dfs_order g)) r = true →
    usedGet st.used r = true
  hallocd : ∀ opv id, lookupA st.allocd opv = some id → AvoidsMarked g id
  hkeep : ∀ r : Nat, r < 13 → usedGet (premark_used g (dfs_order g)) r = true →
    ∀ q op, getSlot st.cur q = some op → op.state = OpState.Allocated →
      op.value = (r : Int) → getSlot (progOf g) q = some op

/-- The invariant with the active-list facts weakened at one slot about to
be colored. -/
structure ScanInvAt (g : MachineFunc) (st : ScanState) (pa : SlotPath) : Prop where
  hrev : revertAlloc st.alloc st.cur = progOf g
  hunc : ∀ q, lookupA st.alloc q = none → getSlot st.cur q = getSlot (progOf g) q
  horig : ∀ q v, lookupA st.alloc q = some v →
    getSlot (progOf g) q = some ⟨OpState.Virtual, v⟩ ∧ (getSlot st.cur q).isSome = true
  hnd : (st.alloc.map Prod.fst).Nodup
  hndd : (st.allocd.map Prod.fst).Nodup
  hsub : ∀ q ∈ st.active, q = pa ∨ q ∈ st.alloc.map Prod.fst
  hact : ∀ q ∈ st.active, q = pa ∨ (∃ op, getSlot st.cur q = some op
    ∧ op.state = OpState.Allocated ∧ AvoidsMarked g op.value)
  hand : st.active.Nodup
  hused : ∀ r : Nat, r < 13 → usedGet (premark_used g (dfs_order g)) r = true →
    usedGet st.used r = true
  hallocd : ∀ opv id, lookupA st.allocd opv = some id → AvoidsMarked g id
  hkeep : ∀ r : Nat, r < 13 → usedGet (premark_used g (dfs_order g)) r = true →
    ∀ q op, getSlot st.cur q = some op → op.state = OpState.Allocated →
      op.value = (r : Int) → getSlot (progOf g) q = some op

theorem ScanInv.weaken {g : MachineFunc} {st : ScanState} (pa : SlotPath)
    (h : ScanInv g st) : ScanInvAt g st pa :=
  ⟨h.hrev, h.hunc, h.horig, h.hnd, h.hndd,
   fun q hq => Or.inr (h.hsub q hq),
   fun q hq => Or.inr (h.hact q hq),
   h.hand, h.hused, h.hallocd, h.hkeep⟩

theorem colorDef_some (st : ScanState) (pa : SlotPath) (id : Int) (op : MachineOperand)
    (h : getSlot st.cur pa = some op) :
    colorDef st pa id
      = { st with
            alloc := insertA st.alloc pa op.value,
            cur := setSlot st.cur pa ⟨OpState.Allocated, id⟩ } := by
  unfold colorDef
  rw [h]

theorem colorDef_none (st : ScanState) (pa : SlotPath) (id : Int)
    (h : getSlot st.cur pa = none) : colorDef st pa id = st := by
  unfold colorDef
  rw [h]

theorem colorDef_inv (g : MachineFunc) (st : ScanState) (pa : SlotPath) (id : Int)
    (op : MachineOperand) (h : ScanInvAt g st pa)
    (hop : getSlot st.cur pa = some op) (hvirt : op.state = OpState.Virtual)
    (hid : AvoidsMarked g id) : ScanInv g (colorDef st pa id) := by
  rw [colorDef_some st pa id op hop]
  have hcur_pa : getSlot (setSlot st.cur pa ⟨OpState.Allocated, id⟩) pa
      = some ⟨OpState.Allocated, id⟩ := getSlot_setSlot_self _ _ op _ hop
  have hcur_ne : ∀ q, q ≠ pa →
      getSlot (setSlot st.cur pa ⟨OpState.Allocated, id⟩) q = getSlot st.cur q :=
    fun q hq => getSlot_setSlot_ne _ pa q _ (Ne.symm hq)
  have hactx : ∀ q ∈ st.active, ∃ op2,
      getSlot (setSlot st.cur pa ⟨OpState.Allocated, id⟩) q = some op2
      ∧ op2.state = OpState.Allocated ∧ AvoidsMarked g op2.value := by
    intro q hq
    rcases h.hact q hq with hq1 | ⟨op2, hg2, hA2, hV2⟩
    · subst hq1
      exact ⟨⟨OpState.Allocated, id⟩, hcur_pa, rfl, hid⟩
    · by_cases hqpa : q = pa
      · subst hqpa
        exact ⟨⟨OpState.Allocated, id⟩, hcur_pa, rfl, hid⟩
      · exact ⟨op2, by rw [hcur_ne q hqpa]; exact hg2, hA2, hV2⟩
  have hkeepx : ∀ r : Nat, r < 13 → usedGet (premark_used g (dfs_order g)) r = true →
      ∀ q op3, getSlot (setSlot st.cur pa ⟨OpState.Allocated, id⟩) q = some op3 →
        op3.state = OpState.Allocated → op3.value = (r : Int) →
        getSlot (progOf g) q = some op3 := by
    intro r hr hm q op3 hg3 hA3 hv3
    by_cases hqpa : q = pa
    · subst hqpa
      rw [hcur_pa] at hg3
      have hq3 : op3 = ⟨OpState.Allocated, id⟩ := ((Option.some.injEq _ _).mp hg3).symm
      rw [hq3] at hv3
      exact absurd hv3 ((hid r hr hm).1)
    · rw [hcur_ne q hqpa] at hg3
      exact h.hkeep r hr hm q op3 hg3 hA3 hv3
  rcases hl : lookupA st.alloc pa with _ | w
  · have hins : insertA st.alloc pa op.value = st.alloc ++ [(pa, op.value)] :=
      insertA_of_none _ _ _ hl
    have hOp : getSlot (progOf g) pa = some op := (h.hunc pa hl).symm.trans hop
    have hopeta : op = ⟨OpState.Virtual, op.value⟩ := by
      cases op with
      | mk s v => rw [show s = OpState.Virtual from hvirt]
    have hpnotin : pa ∉ st.alloc.map Prod.fst := (lookupA_none_iff _ _).mp hl
    refine ⟨?_, ?_, ?_, ?_, ?_, ?_, ?_, ?_, ?_, ?_, ?_⟩
    · show revertAlloc (insertA st.alloc pa op.value)
        (setSlot st.cur pa ⟨OpState.Allocated, id⟩) = progOf g
      rw [hins, revertAlloc_append, revertAlloc_not_mem _ _ _ _ hpnotin, h.hrev]
      show setSlot (setSlot (progOf g) pa ⟨OpState.Allocated, id⟩) pa
        ⟨OpState.Virtual, op.value⟩ = progOf g
      rw [setSlot_setSlot_same, ← hopeta]
      exact setSlot_self_eq _ _ _ hOp
    · intro q hq
      show getSlot (setSlot st.cur pa ⟨OpState.Allocated, id⟩) q = getSlot (progOf g) q
      rw [hins] at hq
      have hq1 : lookupA st.alloc q = none := by
        rcases hl2 : lookupA st.alloc q with _ | v2
        · rfl
        · rw [lookupA_append_left _ _ _ _ hl2] at hq
          exact Option.noConfusion hq
      have hq2 : q ≠ pa := by
        intro he
        rw [lookupA_append_right _ _ _ hq1, lookupA_single, if_pos he.symm] at hq
        exact Option.noConfusion hq
      rw [hcur_ne q hq2]
      exact h.hunc q hq1
    · intro q v hq
      rw [hins] at hq
      by_cases hqpa : q = pa
      · subst hqpa
        rw [lookupA_append_right _ _ _ hl, lookupA_single, if_pos rfl] at hq
        have hv : v = op.value := ((Option.some.injEq _ _).mp hq).symm
        refine ⟨?_, ?_⟩
        · rw [hv, ← hopeta]
          exact hOp
        · rw [hcur_pa]
          rfl
      · have hq1 : lookupA st.alloc q = some v := by
          rcases hl2 : lookupA st.alloc q with _ | v2
          · rw [lookupA_append_right _ _ _ hl2, lookupA_single,
                if_neg (fun he => hqpa he.symm)] at hq
            exact Option.noConfusion hq
          · rw [lookupA_append_left _ _ _ _ hl2] at hq
            exact hq
        refine ⟨(h.horig q v hq1).1, ?_⟩
        rw [hcur_ne q hqpa]
        exact (h.horig q v hq1).2
    · show ((insertA st.alloc pa op.value).map Prod.fst).Nodup
      rw [hins, List.map_append]
      refine List.Nodup.append h.hnd (List.nodup_singleton pa) ?_
      intro a ha hb
      simp only [List.map_cons, List.map_nil, List.mem_singleton] at hb
      exact hpnotin (hb ▸ ha)
    · exact h.hndd
    · intro q hq
      show q ∈ (insertA st.alloc pa op.value).map Prod.fst
      rcases h.hsub q hq with hq1 | hq1
      · subst hq1
        exact mem_keys_insertA _ _ _
      · exact keys_insertA_sub _ _ _ _ hq1
    · exact hactx
    · exact h.hand
    · exact h.hused
    · exact h.hallocd
    · exact hkeepx
  · have hins : insertA st.alloc pa op.value = st.alloc := insertA_of_some _ _ _ w hl
    have hpain : pa ∈ st.alloc.map Prod.fst := lookupA_some_mem _ _ _ hl
    refine ⟨?_, ?_, ?_, ?_, ?_, ?_, ?_, ?_, ?_, ?_, ?_⟩
    · show revertAlloc (insertA st.alloc pa op.value)
        (setSlot st.cur pa ⟨OpState.Allocated, id⟩) = progOf g
      rw [hins, revertAlloc_mem _ _ _ _ hpain]
      exact h.hrev
    · intro q hq
      rw [hins] at hq
      have hq2 : q ≠ pa := by
        intro he
        rw [he, hl] at hq
        exact Option.noConfusion hq
      show getSlot (setSlot st.cur pa ⟨OpState.Allocated, id⟩) q = getSlot (progOf g) q
      rw [hcur_ne q hq2]
      exact h.hunc q hq
    · intro q v hq
      rw [hins] at hq
      refine ⟨(h.horig q v hq).1, ?_⟩
      by_cases hqpa : q = pa
      · subst hqpa
        rw [hcur_pa]
        rfl
      · rw [hcur_ne q hqpa]
        exact (h.horig q v hq).2
    · show ((insertA st.alloc pa op.value).map Prod.fst).Nodup
      rw [hins]
      exact h.hnd
    · exact h.hndd
    · intro q hq
      show q ∈ (insertA st.alloc pa op.value).map Prod.fst
      rw [hins]
      rcases h.hsub q hq with hq1 | hq1
      · subst hq1
        exact hpain
      · exact hq1
    · exact hactx
    · exact h.hand
    · exact h.hused
    · exact h.hallocd
    · exact hkeepx

theorem scanStep_nul (o2s o2e : List (SlotPath × Nat)) (st : ScanState) (pa : SlotPath)
    (h : getSlot st.cur pa = none) : scanStep o2s o2e st pa = st := by
  unfold scanStep
  rw [h]

theorem scanStep_skip (o2s o2e : List (SlotPath × Nat)) (st : ScanState) (pa : SlotPath)
    (op : MachineOperand) (h : getSlot st.cur pa = some op)
    (hs : ¬ op.state = OpState.Virtual) : scanStep o2s o2e st pa = st := by
  unfold scanStep
  split
  · rename_i op2 heq
    rw [h] at heq
    injection heq with heq2
    subst heq2
    rw [if_neg hs]
  · rfl

theorem scanStep_hit (o2s o2e : List (SlotPath × Nat)) (st : ScanState) (pa : SlotPath)
    (op : MachineOperand) (id : Int) (u : List Bool) (a : List SlotPath)
    (h : getSlot st.cur pa = some op) (hv : op.state = OpState.Virtual)
    (hua : expireOld o2e (keyStart o2s pa) st.cur st.used st.active = (u, a))
    (hm : lookupA st.allocd op = some id) :
    scanStep o2s o2e st pa = colorDef { st with used := u, active := a } pa id := by
  unfold scanStep
  split
  · rename_i op2 heq
    rw [h] at heq
    injection heq with heq2
    subst heq2
    rw [if_pos hv]
    dsimp only
    rw [hua]
    dsimp only
    split
    · rename_i id2 heq3
      rw [hm] at heq3
      injection heq3 with heq4
      subst heq4
      rfl
    · rename_i heq3
      rw [hm] at heq3
      exact Option.noConfusion heq3
  · rename_i heq
    rw [h] at heq
    exact Option.noConfusion heq

theorem scanStep_free (o2s o2e : List (SlotPath × Nat)) (st : ScanState) (pa : SlotPath)
    (op : MachineOperand) (u : List Bool) (a : List SlotPath) (k : Nat)
    (h : getSlot st.cur pa = some op) (hv : op.state = OpState.Virtual)
    (hua : expireOld o2e (keyStart o2s pa) st.cur st.used st.active = (u, a))
    (hm : lookupA st.allocd op = none) (hf : findFreeReg u = some k) :
    scanStep o2s o2e st pa
      = colorDef { st with
            used := u.set k true,
            active := active_bubble (keyEnd o2e) (a ++ [pa]),
            allocd := setA st.allocd op (k : Int) } pa (k : Int) := by
  unfold scanStep
  split
  · rename_i op2 heq
    rw [h] at heq
    injection heq with heq2
    subst heq2
    rw [if_pos hv]
    dsimp only
    rw [hua]
    dsimp only
    split
    · rename_i id2 heq3
      rw [hm] at heq3
      exact Option.noConfusion heq3
    · split
      · rename_i k2 heq4
        rw [hf] at heq4
        injection heq4 with heq5
        subst heq5
        rfl
      · rename_i heq4
        rw [hf] at heq4
        exact Option.noConfusion heq4
  · rename_i heq
    rw [h] at heq
    exact Option.noConfusion heq

theorem scanStep_spill_empty (o2s o2e : List (SlotPath × Nat)) (st : ScanState)
    (pa : SlotPath) (op : MachineOperand) (u : List Bool) (a : List SlotPath)
    (h : getSlot st.cur pa = some op) (hv : op.state = OpState.Virtual)
    (hua : expireOld o2e (keyStart o2s pa) st.cur st.used st.active = (u, a))
    (hm : lookupA st.allocd op = none) (hf : findFreeReg u = none)
    (hl : a.getLast? = none) :
    scanStep o2s o2e st pa
      = { st with used := u, active := a, spilled := insert op st.spilled } := by
  unfold scanStep
  split
  · rename_i op2 heq
    rw [h] at heq
    injection heq with heq2
    subst heq2
    rw [if_pos hv]
    dsimp only
    rw [hua]
    dsimp only
    split
    · rename_i id2 heq3
      rw [hm] at heq3
      exact Option.noConfusion heq3
    · split
      · rename_i k2 heq4
        rw [hf] at heq4
        exact Option.noConfusion heq4
      · split
        · rfl
        · rename_i sp heq5
          rw [hl] at heq5
          exact Option.noConfusion heq5
  · rename_i heq
    rw [h] at heq
    exact Option.noConfusion heq

theorem scanStep_spill_far (o2s o2e : List (SlotPath × Nat)) (st : ScanState)
    (pa : SlotPath) (op : MachineOperand) (u : List Bool) (a : List SlotPath)
    (sp : SlotPath)
    (h : getSlot st.cur pa = some op) (hv : op.state = OpState.Virtual)
    (hua : expireOld o2e (keyStart o2s pa) st.cur st.used st.active = (u, a))
    (hm : lookupA st.allocd op = none) (hf : findFreeReg u = none)
    (hl : a.getLast? = some sp) (hcmp : keyEnd o2e sp < keyEnd o2e pa) :
    scanStep o2s o2e st pa
      = { st with used := u, active := a, spilled := insert op st.spilled } := by
  unfold scanStep
  split
  · rename_i op2 heq
    rw [h] at heq
    injection heq with heq2
    subst heq2
    rw [if_pos hv]
    dsimp only
    rw [hua]
    dsimp only
    split
    · rename_i id2 heq3
      rw [hm] at heq3
      exact Option.noConfusion heq3
    · split
      · rename_i k2 heq4
        rw [hf] at heq4
        exact Option.noConfusion heq4
      · split
        · rename_i heq5
          rw [hl] at heq5
        · rename_i sp2 heq5
          rw [hl] at heq5
          injection heq5 with heq6
          subst heq6
          rw [if_pos hcmp]
  · rename_i heq
    rw [h] at heq
    exact Option.noConfusion heq

theorem scanStep_evict (o2s o2e : List (SlotPath × Nat)) (st : ScanState)
    (pa : SlotPath) (op spop : MachineOperand) (u : List Bool) (a : List SlotPath)
    (sp : SlotPath)
    (h : getSlot st.cur pa = some op) (hv : op.state = OpState.Virtual)
    (hua : expireOld o2e (keyStart o2s pa) st.cur st.used st.active = (u, a))
    (hm : lookupA st.allocd op = none) (hf : findFreeReg u = none)
    (hl : a.getLast? = some sp) (hcmp : ¬ keyEnd o2e sp < keyEnd o2e pa)
    (hsp : getSlot st.cur sp = some spop) :
    scanStep o2s o2e st pa
      = colorDef { st with
            used := u,
            active := active_bubble (keyEnd o2e) (a.set (a.length - 1) pa),
            allocd := eraseA (setA st.allocd op spop.value)
              ⟨OpState.Virtual, (lookupA st.alloc sp).getD 0⟩,
            alloc := eraseA st.alloc sp,
            cur := setSlot st.cur sp ⟨OpState.Virtual, (lookupA st.alloc sp).getD 0⟩,
            spilled := insert ⟨OpState.Virtual, (lookupA st.alloc sp).getD 0⟩
              st.spilled } pa spop.value := by
  unfold scanStep
  split
  · rename_i op2 heq
    rw [h] at heq
    injection heq with heq2
    subst heq2
    rw [if_pos hv]
    dsimp only
    rw [hua]
    dsimp only
    split
    · rename_i id2 heq3
      rw [hm] at heq3
      exact Option.noConfusion heq3
    · split
      · rename_i k2 heq4
        rw [hf] at heq4
        exact Option.noConfusion heq4
      · split
        · rename_i heq5
          rw [hl] at heq5
          exact Option.noConfusion heq5
        · rename_i sp2 heq5
          rw [hl] at heq5
          injection heq5 with heq6
          subst heq6
          rw [if_neg hcmp]
          rw [hsp]
  · rename_i heq
    rw [h] at heq
    exact Option.noConfusion heq

theorem expire_inv (g : MachineFunc) (o2s o2e : List (SlotPath × Nat)) (st : ScanState)
    (pa : SlotPath) (u : List Bool) (a : List SlotPath) (h : ScanInv g st)
    (hua : expireOld o2e (keyStart o2s pa) st.cur st.used st.active = (u, a)) :
    ScanInv g { st with used := u, active := a } := by
  have hsubl : a.Sublist st.active := by
    have hs := expireOld_sublist o2e (keyStart o2s pa) st.cur st.active st.used
    rw [hua] at hs
    exact hs
  refine ⟨h.hrev, h.hunc, h.horig, h.hnd, h.hndd, ?_, ?_, ?_, ?_, h.hallocd, h.hkeep⟩
  · exact fun q hq => h.hsub q (hsubl.subset hq)
  · exact fun q hq => h.hact q (hsubl.subset hq)
  · exact List.Nodup.sublist hsubl h.hand
  · intro r hr hm
    have hu := expireOld_used o2e (keyStart o2s pa) st.cur r st.active st.used
      (h.hused r hr hm) ?_
    · rw [hua] at hu
      exact hu
    · intro q hq op hgq
      obtain ⟨op2, hg2, _, hAv2⟩ := h.hact q hq
      rw [hgq] at hg2
      have hoe : op = op2 := (Option.some.injEq _ _).mp hg2
      rw [← hoe] at hAv2
      exact (hAv2 r hr hm).2

theorem findFreeReg_mem (u : List Bool) (k : Nat) (hf : findFreeReg u = some k) :
    4 ≤ k ∧ k < 13 ∧ usedGet u k = false := by
  unfold findFreeReg at hf
  have hm := List.mem_of_find?_eq_some hf
  have hp := List.find?_some hf
  have hlist : ((List.range 13).drop 4) = [4, 5, 6, 7, 8, 9, 10, 11, 12] := rfl
  rw [hlist] at hm
  have hval : usedGet u k = false := by
    simpa using hp
  simp only [List.mem_cons, List.not_mem_nil, or_false] at hm
  rcases hm with h1 | h1 | h1 | h1 | h1 | h1 | h1 | h1 | h1 <;> subst h1 <;>
    exact ⟨by omega, by omega, hval⟩

theorem scanStep_inv (g : MachineFunc) (o2s o2e : List (SlotPath × Nat)) (st : ScanState)
    (pa : SlotPath) (h : ScanInv g st) : ScanInv g (scanStep o2s o2e st pa) := by
  rcases hg : getSlot st.cur pa with _ | op
  · rw [scanStep_nul o2s o2e st pa hg]
    exact h
  · by_cases hv : op.state = OpState.Virtual
    · rcases hua : expireOld o2e (keyStart o2s pa) st.cur st.used st.active with ⟨u, a⟩
      have h1 : ScanInv g { st with used := u, active := a } :=
        expire_inv g o2s o2e st pa u a h hua
      have hpa_not : pa ∉ a := by
        intro hpa
        obtain ⟨op2, hg2, hA2, _⟩ := h1.hact pa hpa
        rw [hg] at hg2
        have hoe : op = op2 := (Option.some.injEq _ _).mp hg2
        rw [← hoe, hv] at hA2
        exact OpState.noConfusion hA2
      rcases hm : lookupA st.allocd op with _ | id
      · rcases hf : findFreeReg u with _ | k
        · rcases hl : a.getLast? with _ | sp
          · rw [scanStep_spill_empty o2s o2e st pa op u a hg hv hua hm hf hl]
            exact ⟨h1.hrev, h1.hunc, h1.horig, h1.hnd, h1.hndd, h1.hsub, h1.hact,
              h1.hand, h1.hused, h1.hallocd, h1.hkeep⟩
          · by_cases hcmp : keyEnd o2e sp < keyEnd o2e pa
            · rw [scanStep_spill_far o2s o2e st pa op u a sp hg hv hua hm hf hl hcmp]
              exact ⟨h1.hrev, h1.hunc, h1.horig, h1.hnd, h1.hndd, h1.hsub, h1.hact,
                h1.hand, h1.hused, h1.hallocd, h1.hkeep⟩
            · have hspmem : sp ∈ a := getLastq_mem a sp hl
              obtain ⟨spop, hsp, hspA, hspAv⟩ := h1.hact sp hspmem
              rw [scanStep_evict o2s o2e st pa op spop u a sp hg hv hua hm hf hl hcmp hsp]
              obtain ⟨w, hw⟩ : ∃ w, lookupA st.alloc sp = some w :=
                mem_lookupA_isSome _ _ (h1.hsub sp hspmem)
              have horigd : (lookupA st.alloc sp).getD 0 = w := by
                rw [hw]
                rfl
              have hOsp : getSlot (progOf g) sp = some ⟨OpState.Virtual, w⟩ :=
                (h1.horig sp w hw).1
              rw [horigd]
              have hane : a ≠ [] := by
                intro he
                rw [he] at hl
                exact Option.noConfusion hl
              have hdecomp : a.set (a.length - 1) pa = a.dropLast ++ [pa] :=
                set_last_decomp a pa hane
              have hsp_notdrop : sp ∉ a.dropLast :=
                getLast_not_mem_dropLast a sp h1.hand hl
              have hmemcases : ∀ q ∈ active_bubble (keyEnd o2e) (a.set (a.length - 1) pa),
                  q = pa ∨ (q ∈ a ∧ q ≠ sp) := by
                intro q hq
                have hq2 : q ∈ a.set (a.length - 1) pa :=
                  (active_bubble_perm (keyEnd o2e) _).mem_iff.mp hq
                rw [hdecomp] at hq2
                rcases List.mem_append.mp hq2 with hq3 | hq3
                · refine Or.inr ⟨List.Sublist.subset (List.dropLast_sublist a) hq3, ?_⟩
                  intro he
                  exact hsp_notdrop (he ▸ hq3)
                · exact Or.inl (List.mem_singleton.mp hq3)
              have hAt : ScanInvAt g { st with
                  used := u,
                  active := active_bubble (keyEnd o2e) (a.set (a.length - 1) pa),
                  allocd := eraseA (setA st.allocd op spop.value) ⟨OpState.Virtual, w⟩,
                  alloc := eraseA st.alloc sp,
                  cur := setSlot st.cur sp ⟨OpState.Virtual, w⟩,
                  spilled := insert ⟨OpState.Virtual, w⟩ st.spilled } pa := by
                refine ⟨?_, ?_, ?_, ?_, ?_, ?_, ?_, ?_, ?_, ?_, ?_⟩
                · show revertAlloc (eraseA st.alloc sp)
                    (setSlot st.cur sp ⟨OpState.Virtual, w⟩) = progOf g
                  rw [revertAlloc_erase _ _ _ _ hw]
                  exact h.hrev
                · intro q hq
                  by_cases hqsp : q = sp
                  · subst hqsp
                    show getSlot (setSlot st.cur q ⟨OpState.Virtual, w⟩) q
                      = getSlot (progOf g) q
                    rw [getSlot_setSlot_self _ _ spop _ hsp, hOsp]
                  · show getSlot (setSlot st.cur sp ⟨OpState.Virtual, w⟩) q
                      = getSlot (progOf g) q
                    rw [getSlot_setSlot_ne _ sp q _ (Ne.symm hqsp)]
                    have hq1 : lookupA st.alloc q = none := by
                      rw [← lookupA_eraseA_ne st.alloc sp q hqsp]
                      exact hq
                    exact h.hunc q hq1
                · intro q v hq
                  have hqsp : q ≠ sp := by
                    intro he
                    rw [he, lookupA_eraseA_self _ _ h.hnd] at hq
                    exact Option.noConfusion hq
                  have hq1 : lookupA st.alloc q = some v := by
                    rw [← lookupA_eraseA_ne st.alloc sp q hqsp]
                    exact hq
                  refine ⟨(h.horig q v hq1).1, ?_⟩
                  show (getSlot (setSlot st.cur sp ⟨OpState.Virtual, w⟩) q).isSome = true
                  rw [getSlot_setSlot_ne _ sp q _ (Ne.symm hqsp)]
                  exact (h.horig q v hq1).2
                · exact nodup_keys_eraseA _ _ h.hnd
                · exact nodup_keys_eraseA _ _ (nodup_keys_setA _ _ _ h.hndd)
                · intro q hq
                  rcases hmemcases q hq with hq1 | ⟨hq1, hq2⟩
                  · exact Or.inl hq1
                  · exact Or.inr (mem_keys_eraseA _ _ _ (h1.hsub q hq1) hq2)
                · intro q hq
                  rcases hmemcases q hq with hq1 | ⟨hq1, hq2⟩
                  · exact Or.inl hq1
                  · obtain ⟨op2, hg2, hA2, hAv2⟩ := h1.hact q hq1
                    refine Or.inr ⟨op2, ?_, hA2, hAv2⟩
                    show getSlot (setSlot st.cur sp ⟨OpState.Virtual, w⟩) q = some op2
                    rw [getSlot_setSlot_ne _ sp q _ (Ne.symm hq2)]
                    exact hg2
                · show (active_bubble (keyEnd o2e) (a.set (a.length - 1) pa)).Nodup
                  refine ((active_bubble_perm _ _).nodup_iff).mpr ?_
                  rw [hdecomp]
                  refine List.Nodup.append
                    (List.Nodup.sublist (List.dropLast_sublist a) h1.hand)
                    (List.nodup_singleton pa) ?_
                  intro x hx hx2
                  have hxpa : x = pa := List.mem_singleton.mp hx2
                  exact hpa_not (hxpa ▸
                    List.Sublist.subset (List.dropLast_sublist a) hx)
                · exact h1.hused
                · intro opv idv hq
                  have hqv : opv ≠ (⟨OpState.Virtual, w⟩ : MachineOperand) := by
                    intro he
                    rw [he, lookupA_eraseA_self _ _ (nodup_keys_setA _ _ _ h.hndd)] at hq
                    exact Option.noConfusion hq
                  have hq1 : lookupA (setA st.allocd op spop.value) opv = some idv := by
                    rw [← lookupA_eraseA_ne _ _ _ hqv]
                    exact hq
                  by_cases hopv : op = opv
                  · rw [← hopv, lookupA_setA_self] at hq1
                    have hie : idv = spop.value := ((Option.some.injEq _ _).mp hq1).symm
                    rw [hie]
                    exact hspAv
                  · rw [lookupA_setA_ne _ _ _ _ hopv] at hq1
                    exact h.hallocd opv idv hq1
                · intro r hr hm2 q op3 hg3 hA3 hv3
                  by_cases hqsp : q = sp
                  · subst hqsp
                    rw [getSlot_setSlot_self _ _ spop _ hsp] at hg3
                    have hq3 : op3 = ⟨OpState.Virtual, w⟩ :=
                      ((Option.some.injEq _ _).mp hg3).symm
                    rw [hq3] at hA3
                    exact OpState.noConfusion hA3
                  · rw [getSlot_setSlot_ne _ sp q _ (Ne.symm hqsp)] at hg3
                    exact h.hkeep r hr hm2 q op3 hg3 hA3 hv3
              by_cases hsppa : sp = pa
              · have hop2 : getSlot (setSlot st.cur sp ⟨OpState.Virtual, w⟩) pa
                    = some ⟨OpState.Virtual, w⟩ := by
                  rw [hsppa]
                  exact getSlot_setSlot_self _ _ spop _ (hsppa ▸ hsp)
                exact colorDef_inv g _ pa spop.value ⟨OpState.Virtual, w⟩ hAt hop2 rfl hspAv
              · have hop2 : getSlot (setSlot st.cur sp ⟨OpState.Virtual, w⟩) pa
                    = some op := by
                  rw [getSlot_setSlot_ne _ sp pa _ hsppa]
                  exact hg
                exact colorDef_inv g _ pa spop.value op hAt hop2 hv hspAv
        · rw [scanStep_free o2s o2e st pa op u a k hg hv hua hm hf]
          have hkf : usedGet u k = false := (findFreeReg_mem u k hf).2.2
          have hkAv : AvoidsMarked g (k : Int) := by
            intro r hr hm2
            have hur : usedGet u r = true := h1.hused r hr hm2
            have hkr : k ≠ r := by
              intro he
              rw [he, hur] at hkf
              exact Bool.noConfusion hkf
            constructor
            · intro he
              exact hkr (by exact_mod_cast he)
            · have ht : ((k : Int)).toNat = k := Int.toNat_ofNat k
              rw [ht]
              exact hkr
          have hAt : ScanInvAt g { st with
              used := u.set k true,
              active := active_bubble (keyEnd o2e) (a ++ [pa]),
              allocd := setA st.allocd op (k : Int) } pa := by
            refine ⟨h1.hrev, h1.hunc, h1.horig, h1.hnd,
              nodup_keys_setA _ _ _ h.hndd, ?_, ?_, ?_, ?_, ?_, h1.hkeep⟩
            · intro q hq
              have hq2 : q ∈ a ++ [pa] :=
                (active_bubble_perm (keyEnd o2e) _).mem_iff.mp hq
              rcases List.mem_append.mp hq2 with hq3 | hq3
              · exact Or.inr (h1.hsub q hq3)
              · exact Or.inl (List.mem_singleton.mp hq3)
            · intro q hq
              have hq2 : q ∈ a ++ [pa] :=
                (active_bubble_perm (keyEnd o2e) _).mem_iff.mp hq
              rcases List.mem_append.mp hq2 with hq3 | hq3
              · exact Or.inr (h1.hact q hq3)
              · exact Or.inl (List.mem_singleton.mp hq3)
            · show (active_bubble (keyEnd o2e) (a ++ [pa])).Nodup
              refine ((active_bubble_perm _ _).nodup_iff).mpr ?_
              refine List.Nodup.append h1.hand (List.nodup_singleton pa) ?_
              intro x hx hx2
              exact hpa_not (List.mem_singleton.mp hx2 ▸ hx)
            · intro r hr hm2
              exact usedGet_set_true u k r (h1.hused r hr hm2)
            · intro opv idv hq
              by_cases hopv : op = opv
              · rw [← hopv, lookupA_setA_self] at hq
                have hie : idv = (k : Int) := ((Option.some.injEq _ _).mp hq).symm
                rw [hie]
                exact hkAv
              · rw [lookupA_setA_ne _ _ _ _ hopv] at hq
                exact h.hallocd opv idv hq
          exact colorDef_inv g _ pa (k : Int) op hAt hg hv hkAv
      · rw [scanStep_hit o2s o2e st pa op id u a hg hv hua hm]
        exact colorDef_inv g _ pa id op (ScanInv.weaken pa h1) hg hv (h.hallocd op id hm)
    · rw [scanStep_skip o2s o2e st pa op hg hv]
      exact h

theorem sweepUse_nul (st : ScanState) (pa : SlotPath)
    (h : getSlot st.cur pa = none) : sweepUse st pa = st := by
  unfold sweepUse
  rw [h]

theorem sweepUse_skip (st : ScanState) (pa : SlotPath) (op : MachineOperand)
    (h : getSlot st.cur pa = some op) (hs : ¬ op.state = OpState.Virtual) :
    sweepUse st pa = st := by
  unfold sweepUse
  split
  · rename_i op2 heq
    rw [h] at heq
    injection heq with heq2
    subst heq2
    rw [if_neg hs]
  · rfl

theorem sweepUse_miss (st : ScanState) (pa : SlotPath) (op : MachineOperand)
    (h : getSlot st.cur pa = some op) (hv : op.state = OpState.Virtual)
    (hm : lookupA st.allocd op = none) :
    sweepUse st pa = { st with spilled := insert op st.spilled } := by
  unfold sweepUse
  split
  · rename_i op2 heq
    rw [h] at heq
    injection heq with heq2
    subst heq2
    rw [if_pos hv]
    split
    · rfl
    · rename_i id2 heq3
      rw [hm] at heq3
      exact Option.noConfusion heq3
  · rename_i heq
    rw [h] at heq
    exact Option.noConfusion heq

theorem sweepUse_hit (st : ScanState) (pa : SlotPath) (op : MachineOperand) (id : Int)
    (h : getSlot st.cur pa = some op) (hv : op.state = OpState.Virtual)
    (hm : lookupA st.allocd op = some id) :
    sweepUse st pa = colorDef st pa id := by
  unfold sweepUse
  split
  · rename_i op2 heq
    rw [h] at heq
    injection heq with heq2
    subst heq2
    rw [if_pos hv]
    split
    · rename_i heq3
      rw [hm] at heq3
      exact Option.noConfusion heq3
    · rename_i id2 heq3
      rw [hm] at heq3
      injection heq3 with heq4
      subst heq4
      rfl
  · rename_i heq
    rw [h] at heq
    exact Option.noConfusion heq

theorem sweepUse_inv (g : MachineFunc) (st : ScanState) (pa : SlotPath)
    (h : ScanInv g st) : ScanInv g (sweepUse st pa) := by
  rcases hg : getSlot st.cur pa with _ | op
  · rw [sweepUse_nul st pa hg]
    exact h
  · by_cases hv : op.state = OpState.Virtual
    · rcases hm : lookupA st.allocd op with _ | id
      · rw [sweepUse_miss st pa op hg hv hm]
        exact ⟨h.hrev, h.hunc, h.horig, h.hnd, h.hndd, h.hsub, h.hact, h.hand,
          h.hused, h.hallocd, h.hkeep⟩
      · rw [sweepUse_hit st pa op id hg hv hm]
        exact colorDef_inv g st pa id op (ScanInv.weaken pa h) hg hv (h.hallocd op id hm)
    · rw [sweepUse_skip st pa op hg hv]
      exact h

theorem sweep_inst_inv (g : MachineFunc) (b i : Nat) (st : ScanState)
    (h : ScanInv g st) : ScanInv g (sweep_inst b i st) := by
  unfold sweep_inst
  rcases hI : (st.cur.getD b []).get? i with _ | inst
  · exact h
  · exact foldl_pres (fun st2 r => sweepUse st2 (b, i, r)) (ScanInv g)
      (fun st2 r h2 => sweepUse_inv g st2 (b, i, r) h2) _ st h

theorem sweep_block_inv (g : MachineFunc) (st : ScanState) (b : Nat)
    (h : ScanInv g st) : ScanInv g (sweep_block st b) := by
  unfold sweep_block
  exact foldl_pres (fun st2 i => sweep_inst b i st2) (ScanInv g)
    (fun st2 i h2 => sweep_inst_inv g b i st2 h2) _ st h

theorem use_sweep_inv (g : MachineFunc) (dfsl : List Nat) (st : ScanState)
    (h : ScanInv g st) : ScanInv g (use_sweep dfsl st) := by
  unfold use_sweep
  exact foldl_pres sweep_block (ScanInv g)
    (fun st2 b h2 => sweep_block_inv g st2 b h2) dfsl st h

theorem init_inv (g : MachineFunc) :
    ScanInv g ⟨progOf g, premark_used g (dfs_order g), [], [], [], ∅⟩ := by
  refine ⟨rfl, fun q _ => rfl, ?_, ?_, ?_, ?_, ?_, ?_, ?_, ?_, ?_⟩
  · exact fun q v hq => Option.noConfusion hq
  · exact List.nodup_nil
  · exact List.nodup_nil
  · exact fun q hq => absurd hq (List.not_mem_nil q)
  · exact fun q hq => absurd hq (List.not_mem_nil q)
  · exact List.nodup_nil
  · exact fun r hr hm => hm
  · exact fun opv id hq => Option.noConfusion hq
  · exact fun r hr hm q op3 hg3 hA3 hv3 => hg3

theorem linear_scan_inv (g : MachineFunc) (o2s o2e : List (SlotPath × Nat))
    (sorted : List SlotPath) :
    ScanInv g (linear_scan o2s o2e sorted (progOf g) (premark_used g (dfs_order g))) := by
  unfold linear_scan
  exact foldl_pres (scanStep o2s o2e) (ScanInv g)
    (fun st pa h => scanStep_inv g o2s o2e st pa h) sorted _ (init_inv g)

theorem round_core_inv (g : MachineFunc) : ScanInv g (round_core g).final :=
  use_sweep_inv g (dfs_order g) _ (linear_scan_inv g _ _ _)

/-- An operand occurrence that the pre-marking loop (lines 293-304) marks
into the used array at index r: Allocated or PreColored state, value in
[0, 13), and toNat of the value equal to r. -/
def opMarksR (op : MachineOperand) (r : Nat) : Bool :=
  (decide (op.state = OpState.Allocated) || decide (op.state = OpState.PreColored))
  && (decide ((0 : Int) ≤ op.value) && decide (op.value < 13))
  && decide (op.value.toNat = r)

/-- One slot role holds a marking occurrence for r. -/
def roleMarks (inst : MInst) (ro : SlotRole) (r : Nat) : Bool :=
  match getSlotInst inst ro with
  | some op => opMarksR op r
  | none => false

/-- The def slot of the instruction holds a marking occurrence for r. -/
def defMarks (inst : MInst) (r : Nat) : Bool :=
  match (get_def_use_ptr inst).1 with
  | some ro => roleMarks inst ro r
  | none => false

/-- The instruction holds a marking occurrence for r in its def or use slots. -/
def instMarks (r : Nat) (inst : MInst) : Bool :=
  defMarks inst r || (get_def_use_ptr inst).2.any (fun ro => roleMarks inst ro r)

/-- Register r occurs, Allocated or PreColored, somewhere in the listed
blocks of the function. -/
def occursAP (g : MachineFunc) (dfsl : List Nat) (r : Nat) : Bool :=
  dfsl.any (fun b => ((g.bb.getD b default).insts).any (instMarks r))

theorem roleMarks_some (inst : MInst) (ro : SlotRole) (r : Nat) (op : MachineOperand)
    (hg : getSlotInst inst ro = some op) : roleMarks inst ro r = opMarksR op r := by
  unfold roleMarks
  rw [hg]

theorem roleMarks_none (inst : MInst) (ro : SlotRole) (r : Nat)
    (hg : getSlotInst inst ro = none) : roleMarks inst ro r = false := by
  unfold roleMarks
  rw [hg]

theorem defMarks_some (inst : MInst) (r : Nat) (ro : SlotRole)
    (hd : (get_def_use_ptr inst).1 = some ro) : defMarks inst r = roleMarks inst ro r := by
  unfold defMarks
  rw [hd]

theorem defMarks_none (inst : MInst) (r : Nat)
    (hd : (get_def_use_ptr inst).1 = none) : defMarks inst r = false := by
  unfold defMarks
  rw [hd]

theorem premark_role_some (inst : MInst) (u : List Bool) (ro : SlotRole)
    (op : MachineOperand) (hg : getSlotInst inst ro = some op) :
    premark_role inst u ro = markOp u op := by
  unfold premark_role
  rw [hg]

theorem premark_role_none (inst : MInst) (u : List Bool) (ro : SlotRole)
    (hg : getSlotInst inst ro = none) : premark_role inst u ro = u := by
  unfold premark_role
  rw [hg]

theorem premark_def_some (inst : MInst) (u : List Bool) (ro : SlotRole)
    (hd : (get_def_use_ptr inst).1 = some ro) :
    premark_def inst u = premark_role inst u ro := by
  unfold premark_def
  rw [hd]

theorem premark_def_none (inst : MInst) (u : List Bool)
    (hd : (get_def_use_ptr inst).1 = none) : premark_def inst u = u := by
  unfold premark_def
  rw [hd]

theorem markOp_len (u : List Bool) (op : MachineOperand) :
    (markOp u op).length = u.length := by
  unfold markOp
  by_cases h1 : op.state = OpState.Allocated ∨ op.state = OpState.PreColored
  · rw [if_pos h1]
    by_cases h2 : (0 : Int) ≤ op.value ∧ op.value < 13
    · rw [if_pos h2]
      exact List.length_set u _ _
    · rw [if_neg h2]
  · rw [if_neg h1]

theorem markOp_mono (u : List Bool) (op : MachineOperand) (r : Nat)
    (h : usedGet u r = true) : usedGet (markOp u op) r = true := by
  unfold markOp
  by_cases h1 : op.state = OpState.Allocated ∨ op.state = OpState.PreColored
  · rw [if_pos h1]
    by_cases h2 : (0 : Int) ≤ op.value ∧ op.value < 13
    · rw [if_pos h2]
      exact usedGet_set_true u _ r h
    · rw [if_neg h2]
      exact h
  · rw [if_neg h1]
    exact h

theorem markOp_sets (u : List Bool) (op : MachineOperand) (r : Nat)
    (hlen : u.length = 13) (hmk : opMarksR op r = true) :
    usedGet (markOp u op) r = true := by
  unfold opMarksR at hmk
  simp only [Bool.and_eq_true, Bool.or_eq_true, decide_eq_true_eq] at hmk
  obtain ⟨⟨hst, hrange⟩, htn⟩ := hmk
  unfold markOp
  rw [if_pos hst, if_pos hrange, htn]
  have hrl : r < u.length := by
    rw [hlen]
    omega
  unfold usedGet
  rw [getD_set_self u r true false hrl]

theorem premark_role_len (inst : MInst) (u : List Bool) (ro : SlotRole) :
    (premark_role inst u ro).length = u.length := by
  rcases hg : getSlotInst inst ro with _ | op
  · rw [premark_role_none inst u ro hg]
  · rw [premark_role_some inst u ro op hg]
    exact markOp_len u op

theorem premark_role_mono (inst : MInst) (u : List Bool) (ro : SlotRole) (r : Nat)
    (h : usedGet u r = true) : usedGet (premark_role inst u ro) r = true := by
  rcases hg : getSlotInst inst ro with _ | op
  · rw [premark_role_none inst u ro hg]
    exact h
  · rw [premark_role_some inst u ro op hg]
    exact markOp_mono u op r h

theorem premark_role_sets (inst : MInst) (u : List Bool) (ro : SlotRole) (r : Nat)
    (hlen : u.length = 13) (hmk : roleMarks inst ro r = true) :
    usedGet (premark_role inst u ro) r = true := by
  rcases hg : getSlotInst inst ro with _ | op
  · rw [roleMarks_none inst ro r hg] at hmk
    exact Bool.noConfusion hmk
  · rw [premark_role_some inst u ro op hg]
    rw [roleMarks_some inst ro r op hg] at hmk
    exact markOp_sets u op r hlen hmk

theorem premark_roles_len (inst : MInst) :
    ∀ (roles : List SlotRole) (u : List Bool),
      (roles.foldl (premark_role inst) u).length = u.length
  | [], _ => rfl
  | ro :: rest, u => by
      show (rest.foldl (premark_role inst) (premark_role inst u ro)).length = u.length
      rw [premark_roles_len inst rest (premark_role inst u ro)]
      exact premark_role_len inst u ro

theorem premark_roles_mono (inst : MInst) (r : Nat) :
    ∀ (roles : List SlotRole) (u : List Bool), usedGet u r = true →
      usedGet (roles.foldl (premark_role inst) u) r = true
  | [], _, h => h
  | ro :: rest, u, h =>
      premark_roles_mono inst r rest (premark_role inst u ro)
        (premark_role_mono inst u ro r h)

theorem premark_roles_sets (inst : MInst) (r : Nat) :
    ∀ (roles : List SlotRole) (u : List Bool), u.length = 13 →
      roles.any (fun ro => roleMarks inst ro r) = true →
      usedGet (roles.foldl (premark_role inst) u) r = true
  | [], _, _, hany => Bool.noConfusion hany
  | ro :: rest, u, hlen, hany => by
      rw [List.any_cons] at hany
      rcases Bool.or_eq_true _ _ |>.mp hany with h1 | h1
      · exact premark_roles_mono inst r rest _ (premark_role_sets inst u ro r hlen h1)
      · exact premark_roles_sets inst r rest _
          (by rw [premark_role_len inst u ro]; exact hlen) h1

theorem premark_def_len (inst : MInst) (u : List Bool) :
    (premark_def inst u).length = u.length := by
  rcases hd : (get_def_use_ptr inst).1 with _ | ro
  · rw [premark_def_none inst u hd]
  · rw [premark_def_some inst u ro hd]
    exact premark_role_len inst u ro

theorem premark_inst_len (u : List Bool) (inst : MInst) :
    (premark_inst u inst).length = u.length := by
  unfold premark_inst
  rw [premark_roles_len inst _ _]
  exact premark_def_len inst u

theorem premark_inst_mono (u : List Bool) (inst : MInst) (r : Nat)
    (h : usedGet u r = true) : usedGet (premark_inst u inst) r = true := by
  unfold premark_inst
  refine premark_roles_mono inst r _ _ ?_
  rcases hd : (get_def_use_ptr inst).1 with _ | ro
  · rw [premark_def_none inst u hd]
    exact h
  · rw [premark_def_some inst u ro hd]
    exact premark_role_mono inst u ro r h

theorem premark_inst_sets (u : List Bool) (inst : MInst) (r : Nat)
    (hlen : u.length = 13) (hi : instMarks r inst = true) :
    usedGet (premark_inst u inst) r = true := by
  unfold instMarks at hi
  unfold premark_inst
  rcases Bool.or_eq_true _ _ |>.mp hi with h1 | h1
  · rcases hd : (get_def_use_ptr inst).1 with _ | ro
    · rw [defMarks_none inst r hd] at h1
      exact Bool.noConfusion h1
    · rw [defMarks_some inst r ro hd] at h1
      refine premark_roles_mono inst r _ _ ?_
      rw [premark_def_some inst u ro hd]
      exact premark_role_sets inst u ro r hlen h1
  · refine premark_roles_sets inst r _ _ ?_ h1
    rw [premark_def_len inst u]
    exact hlen

theorem premark_insts_len : ∀ (insts : List MInst) (u : List Bool),
    (insts.foldl premark_inst u).length = u.length
  | [], _ => rfl
  | inst :: rest, u => by
      show (rest.foldl premark_inst (premark_inst u inst)).length = u.length
      rw [premark_insts_len rest (premark_inst u inst)]
      exact premark_inst_len u inst

theorem premark_insts_mono (r : Nat) : ∀ (insts : List MInst) (u : List Bool),
    usedGet u r = true → usedGet (insts.foldl premark_inst u) r = true
  | [], _, h => h
  | inst :: rest, u, h =>
      premark_insts_mono r rest (premark_inst u inst) (premark_inst_mono u inst r h)

theorem premark_insts_sets (r : Nat) : ∀ (insts : List MInst) (u : List Bool),
    u.length = 13 → insts.any (instMarks r) = true →
    usedGet (insts.foldl premark_inst u) r = true
  | [], _, _, hany => Bool.noConfusion hany
  | inst :: rest, u, hlen, hany => by
      rw [List.any_cons] at hany
      rcases Bool.or_eq_true _ _ |>.mp hany with h1 | h1
      · exact premark_insts_mono r rest _ (premark_inst_sets u inst r hlen h1)
      · exact premark_insts_sets r rest _
          (by rw [premark_inst_len u inst]; exact hlen) h1

theorem premark_blocks_sets (g : MachineFunc) (r : Nat) : ∀ (dfsl : List Nat)
    (u : List Bool), u.length = 13 →
    dfsl.any (fun b => ((g.bb.getD b default).insts).any (instMarks r)) = true →
    usedGet (dfsl.foldl
      (fun used b => (g.bb.getD b default).insts.foldl premark_inst used) u) r = true
  | [], _, _, hany => Bool.noConfusion hany
  | b :: rest, u, hlen, hany => by
      rw [List.any_cons] at hany
      rcases Bool.or_eq_true _ _ |>.mp hany with h1 | h1
      · refine foldl_pres _ (fun u2 => usedGet u2 r = true)
          (fun u2 b2 h2 => premark_insts_mono r _ u2 h2) rest _ ?_
        exact premark_insts_sets r _ u hlen h1
      · exact premark_blocks_sets g r rest _
          (by rw [premark_insts_len _ u]; exact hlen) h1

theorem premark_used_sets (g : MachineFunc) (dfsl : List Nat) (r : Nat)
    (hocc : occursAP g dfsl r = true) : usedGet (premark_used g dfsl) r = true := by
  unfold premark_used
  exact premark_blocks_sets g r dfsl (List.replicate 13 false) (by simp) hocc

/-- A single-block function whose only instruction compares the virtual
operand v100 with itself: the operand is never defined, so the use sweep
spills it and the round ends with a non-empty spilled set. -/
def fC9 : MachineFunc :=
  ⟨[⟨[MInst.compare (MachineOperand.V 100) (MachineOperand.V 100)],
     none, none, ∅, ∅, ∅, ∅⟩], 0, 200⟩

/-- C9: when a linear-scan round ends with spills, the alloc map recorded
during the round undoes every coloring: replaying it (the revert loop,
lines 426-429) restores exactly the input program, every slot the round
did not record is still unchanged, and every recorded slot's remembered
value is its original virtual id in the input program. -/
theorem spill_round_revert (g : MachineFunc)
    (hsp : (round_core g).final.spilled ≠ ∅) :
    revertAlloc (round_core g).final.alloc (round_core g).final.cur = progOf g
    ∧ (∀ q, lookupA (round_core g).final.alloc q = none →
        getSlot (round_core g).final.cur q = getSlot (progOf g) q)
    ∧ (∀ q v, lookupA (round_core g).final.alloc q = some v →
        getSlot (progOf g) q = some ⟨OpState.Virtual, v⟩) := by
  have h := round_core_inv g
  exact ⟨h.hrev, h.hunc, fun q v hq => (h.horig q v hq).1⟩

/-- Witness for C9 at fC9: its round spills v100, and the revert facts hold. -/
theorem spill_round_revert_witness :
    (round_core fC9).final.spilled ≠ ∅
    ∧ (revertAlloc (round_core fC9).final.alloc (round_core fC9).final.cur = progOf fC9
       ∧ (∀ q, lookupA (round_core fC9).final.alloc q = none →
           getSlot (round_core fC9).final.cur q = getSlot (progOf fC9) q)
       ∧ (∀ q v, lookupA (round_core fC9).final.alloc q = some v →
           getSlot (progOf fC9) q = some ⟨OpState.Virtual, v⟩)) :=
  ⟨by decide, spill_round_revert fC9 (by decide)⟩

/-- A single-block function with a PreColored use of r4 in its (reachable)
entry block, followed by a virtual def. -/
def fC10b : MachineFunc :=
  ⟨[⟨[MInst.move (MachineOperand.V 100) (MachineOperand.R 4),
      MInst.move (MachineOperand.V 101) (MachineOperand.I 0)],
     none, none, ∅, ∅, ∅, ∅⟩], 0, 200⟩

/-- C10 (amended to reachable blocks): a register id below 13 occurring as
an Allocated or PreColored operand in a dfs-reachable block is pre-marked
in the used array for the whole round; the mark survives to the end of the
round (it is only ever cleared by expiry of an active interval, and every
interval the scan activates holds a different register), the allocated map
never hands that register id to any operand, and every slot of the final
program holding that register id as an Allocated value is unchanged from
the input program. -/
theorem premark_protects (g : MachineFunc) (r : Nat) (hr : r < 13)
    (hocc : occursAP g (dfs_order g) r = true) :
    usedGet (round_core g).used0 r = true
    ∧ usedGet (round_core g).final.used r = true
    ∧ (∀ opv id, lookupA (round_core g).final.allocd opv = some id → id ≠ (r : Int))
    ∧ (∀ q op, getSlot (round_core g).final.cur q = some op →
        op.state = OpState.Allocated → op.value = (r : Int) →
        getSlot (progOf g) q = some op) := by
  have hmark : usedGet (premark_used g (dfs_order g)) r = true :=
    premark_used_sets g (dfs_order g) r hocc
  have h := round_core_inv g
  exact ⟨hmark, h.hused r hr hmark,
    fun opv id hq => (h.hallocd opv id hq r hr hmark).1, h.hkeep r hr hmark⟩

/-- Witness for C10 at fC10b and r4: the PreColored use of r4 pre-marks it,
the mark survives, and r4 is never handed out. -/
theorem premark_protects_witness :
    (4 < 13 ∧ occursAP fC10b (dfs_order fC10b) 4 = true)
    ∧ (usedGet (round_core fC10b).used0 4 = true
       ∧ usedGet (round_core fC10b).final.used 4 = true
       ∧ (∀ opv id, lookupA (round_core fC10b).final.allocd opv = some id →
           id ≠ (4 : Int))
       ∧ (∀ q op, getSlot (round_core fC10b).final.cur q = some op →
           op.state = OpState.Allocated → op.value = (4 : Int) →
           getSlot (progOf fC10b) q = some op)) :=
  ⟨⟨by decide, by decide⟩, premark_protects fC10b 4 (by decide) (by decide)⟩
